import Mathlib

/-
Verification of the context package (hierarchical cancellation and
scoped-value propagation): a shallow embedding of the package's data
model and operations, followed by theorems about them.

Modelling conventions:
* The Go heap is a `Heap`: a list of context nodes (a node's id is its
  index; a `*cancelCtx` pointer is the id of the node that owns the
  embedded `cancelCtx`) plus a list of channels (`chans[d] = true` means
  channel `d` is closed).  The process-wide `closedchan` is channel 0,
  closed in the initial heap.
* `emptyCtx`, `valueCtx`, `cancelCtx` and `timerCtx` are the four node
  kinds.  Struct embedding of `Context` means method promotion: a method
  a kind does not define delegates to its parent; the embeddings below
  inline that dispatch.
* Go interface `nil` values (`error`, `any`) are `Option`/`GoVal.vnil`;
  a `*time.Timer` handle is modelled by an `armed` flag (`false` = nil).
* Operations are sequential state transformers: each exported operation
  of the package runs under the node's mutex, so an interleaving-free
  state-passing semantics is the lock-level atomicity the code provides.
* Upward walks (parent chains) and the downward cancellation cascade are
  written with an explicit fuel argument; the canonical entry points
  instantiate the fuel with a bound (chain walks: `i+1`, which suffices
  when parent ids decrease; cascades: the node count).
-/

namespace CtxPkg

/-- The two terminal causes defined by the package (`Canceled`,
`DeadlineExceeded`); a Go `error` is `Option GoErr` with `none` = nil. -/
inductive GoErr where
  | canceled
  | deadlineExceeded
deriving DecidableEq, Repr

/-- Lookup keys: the package-internal `&cancelCtxKey` address, or a
user-supplied comparable key. -/
inductive GoKey where
  | cancelKey
  | user (k : Nat)
deriving DecidableEq, Repr

/-- Values storable in a `valueCtx` / returned by `Value`: Go `nil`, an
integer payload, or a `*cancelCtx` pointer (the id of its node). -/
inductive GoVal where
  | vnil
  | vint (n : Int)
  | vctx (i : Nat)
deriving DecidableEq, Repr

/-- The mutable fields of a `cancelCtx` (also embedded in `timerCtx`):
parent context, lazily created done channel (`atomic.Value`), tracked
cancelable children, and the recorded error. -/
structure CState where
  parent : Nat
  done : Option Nat
  children : List Nat
  err : Option GoErr
deriving DecidableEq, Repr

/-- A context node: `emptyCtx`, `valueCtx`, `cancelCtx`, or `timerCtx`
(embedded `cancelCtx` state, timer handle as an armed flag, deadline). -/
inductive Node where
  | empty
  | value (parent : Nat) (key : GoKey) (val : GoVal)
  | cancel (c : CState)
  | timer (c : CState) (armed : Bool) (deadline : Int)
deriving DecidableEq, Repr

/-- The program state: context nodes, channels (closed flag per id), and
the `goroutines` counter bumped on the fallback-waiter path. -/
structure Heap where
  nodes : List Node
  chans : List Bool
  goroutines : Nat
deriving DecidableEq, Repr

/-- Channel id of the process-wide reusable closed channel `closedchan`. -/
def closedChanId : Nat := 0

def Heap.node (h : Heap) (i : Nat) : Option Node := h.nodes[i]?

def Heap.chan (h : Heap) (d : Nat) : Option Bool := h.chans[d]?

def setNode (h : Heap) (i : Nat) (n : Node) : Heap :=
  { h with nodes := h.nodes.set i n }

/-- The embedded `cancelCtx` state of node `i`, when `i` is a
`cancelCtx` or `timerCtx`. -/
def cstateAt (h : Heap) (i : Nat) : Option CState :=
  match h.node i with
  | some (.cancel c) => some c
  | some (.timer c _ _) => some c
  | _ => none

/-- Update the embedded `cancelCtx` state of node `i` in place. -/
def modifyCS (h : Heap) (i : Nat) (f : CState → CState) : Heap :=
  match h.node i with
  | some (.cancel c) => setNode h i (.cancel (f c))
  | some (.timer c a dl) => setNode h i (.timer (f c) a dl)
  | _ => h

/-- Direct read of node `i`'s recorded error field. -/
def errAt (h : Heap) (i : Nat) : Option GoErr :=
  (cstateAt h i).bind (fun c => c.err)

/-- Direct read of node `i`'s stored done-channel field. -/
def doneAt (h : Heap) (i : Nat) : Option Nat :=
  ((cstateAt h i).map (fun c => c.done)).getD none

/-- Direct read of node `i`'s tracked-children field. -/
def childrenAt (h : Heap) (i : Nat) : List Nat :=
  ((cstateAt h i).map (fun c => c.children)).getD []

/-- Direct read of node `i`'s timer handle (`true` = non-nil armed timer). -/
def timerAt (h : Heap) (i : Nat) : Bool :=
  match h.node i with
  | some (.timer _ a _) => a
  | _ => false

/-- Static parent pointer of node `i` (none for `emptyCtx` / invalid id). -/
def parentAt (h : Heap) (i : Nat) : Option Nat :=
  match h.node i with
  | some (.value p _ _) => some p
  | some (.cancel c) => some c.parent
  | some (.timer c _ _) => some c.parent
  | _ => none

/-- Embedding of the package-level `value` helper loop (also the body of
each kind's `Value` method): walk the parent chain; a `valueCtx` answers
its own key, a `cancelCtx`/`timerCtx` answers the internal key with its
own `*cancelCtx` address, an `emptyCtx` answers nil. -/
def valueF : Nat → Heap → Nat → GoKey → GoVal
  | 0, _, _, _ => .vnil
  | fuel+1, h, i, key =>
    match h.node i with
    | some (.value p k v) => if key = k then v else valueF fuel h p key
    | some (.cancel c) =>
        if key = .cancelKey then .vctx i else valueF fuel h c.parent key
    | some (.timer c _ _) =>
        if key = .cancelKey then .vctx i else valueF fuel h c.parent key
    | some .empty => .vnil
    | none => .vnil

/-- The `Value` method of node `i`. -/
def ctxValue (h : Heap) (i : Nat) (key : GoKey) : GoVal :=
  valueF (i+1) h i key

/-- Embedding of the `Err` method with promotion: `emptyCtx` returns
nil, `valueCtx` delegates upward, `cancelCtx`/`timerCtx` return the
recorded error of the (embedded) cancel state. -/
def errF : Nat → Heap → Nat → Option GoErr
  | 0, _, _ => none
  | fuel+1, h, i =>
    match h.node i with
    | some (.value p _ _) => errF fuel h p
    | some (.cancel c) => c.err
    | some (.timer c _ _) => c.err
    | _ => none

/-- The `Err` method of node `i`. -/
def ctxErr (h : Heap) (i : Nat) : Option GoErr :=
  errF (i+1) h i

/-- Embedding of the `Deadline` method with promotion: `timerCtx`
reports its own fixed time with ok = true; `emptyCtx` reports absent;
`valueCtx` and `cancelCtx` have no `Deadline` of their own, so the
embedded parent `Context`'s method runs. -/
def deadlineF : Nat → Heap → Nat → Int × Bool
  | 0, _, _ => (0, false)
  | fuel+1, h, i =>
    match h.node i with
    | some (.value p _ _) => deadlineF fuel h p
    | some (.cancel c) => deadlineF fuel h c.parent
    | some (.timer _ _ dl) => (dl, true)
    | _ => (0, false)

/-- The `Deadline` method of node `i`. -/
def ctxDeadline (h : Heap) (i : Nat) : Int × Bool :=
  deadlineF (i+1) h i

/-- Lazy allocation step of `Done` on node `i`: append a fresh open
channel and store its id in the node. -/
def doneAlloc (h : Heap) (i : Nat) : Heap :=
  modifyCS { h with chans := h.chans ++ [false] } i
    (fun c0 => { c0 with done := some h.chans.length })

/-- Embedding of the `Done` method with promotion: `emptyCtx` returns
nil; `valueCtx` delegates upward; `cancelCtx`/`timerCtx` return the
stored channel, lazily allocating an open one (double-checked under the
lock) when none was stored yet. -/
def doneF : Nat → Heap → Nat → Option Nat × Heap
  | 0, h, _ => (none, h)
  | fuel+1, h, i =>
    match h.node i with
    | some (.value p _ _) => doneF fuel h p
    | some (.cancel c) =>
        match c.done with
        | some d => (some d, h)
        | none => (some h.chans.length, doneAlloc h i)
    | some (.timer c _ _) =>
        match c.done with
        | some d => (some d, h)
        | none => (some h.chans.length, doneAlloc h i)
    | _ => (none, h)

/-- The `Done` method of node `i`. -/
def ctxDone (h : Heap) (i : Nat) : Option Nat × Heap :=
  doneF (i+1) h i

/-- Nearest `*cancelCtx` on the parent chain starting at `i` inclusive
(the node a `Done`/internal-key walk stops at). -/
def nearestF : Nat → Heap → Nat → Option Nat
  | 0, _, _ => none
  | fuel+1, h, i =>
    match h.node i with
    | some (.value p _ _) => nearestF fuel h p
    | some (.cancel _) => some i
    | some (.timer _ _ _) => some i
    | _ => none

def nearestCC (h : Heap) (i : Nat) : Option Nat :=
  nearestF (i+1) h i

/-- Embedding of `parentCancelCtx`: bail out when the parent's done
channel is nil or is the shared `closedchan`; otherwise look up the
internal key and succeed only when the found node's own stored done
channel equals the one `Done()` reported. -/
def parentCancelCtx (h : Heap) (parent : Nat) : Option Nat × Heap :=
  match ctxDone h parent with
  | (none, h1) => (none, h1)
  | (some d, h1) =>
    if d = closedChanId then (none, h1)
    else
      match ctxValue h1 parent .cancelKey with
      | .vctx p =>
          match cstateAt h1 p with
          | some c => if c.done = some d then (some p, h1) else (none, h1)
          | none => (none, h1)
      | _ => (none, h1)

/-- Embedding of `removeChild`: locate the cancelable ancestor and
delete `child` from its tracked-child set (no-op when not found). -/
def removeChild (h : Heap) (parent child : Nat) : Heap :=
  match parentCancelCtx h parent with
  | (some p, h1) => modifyCS h1 p (fun c => { c with children := c.children.erase child })
  | (none, h1) => h1

/-- Body of `cancelCtx.cancel` on the embedded state of node `i`, with
the recursive cancellation of children abstracted as `recur` (the
dynamic `child.cancel(false, err)` dispatch): guard on an already-set
error; record the error; store `closedchan` when no done channel was
ever created, close the existing one otherwise; cancel every tracked
child with `removeFromParent = false`; clear the child set; finally
detach from the parent when requested. -/
def ccCancel (recur : Heap → Nat → GoErr → Heap) (h : Heap) (i : Nat)
    (c : CState) (rm : Bool) (e : GoErr) : Heap :=
  if c.err.isSome then h
  else
    let h1 := modifyCS h i (fun c0 => { c0 with err := some e })
    let h2 := match c.done with
      | none => modifyCS h1 i (fun c0 => { c0 with done := some closedChanId })
      | some d => { h1 with chans := h1.chans.set d true }
    let h3 := c.children.foldl (fun hh ch => recur hh ch e) h2
    let h4 := modifyCS h3 i (fun c0 => { c0 with children := [] })
    if rm then removeChild h4 c.parent i else h4

/-- Embedding of the timer release step of `timerCtx.cancel`: stop the
timer and set the handle to nil (idempotent). -/
def stopTimer (h : Heap) (i : Nat) : Heap :=
  match h.node i with
  | some (.timer c _ dl) => setNode h i (.timer c false dl)
  | _ => h

/-- Dynamic dispatch of the `canceler` interface's `cancel` method:
`cancelCtx.cancel` for a cancel node; for a timer node,
`timerCtx.cancel` (delegate to the embedded state with
`removeFromParent = false`, detach itself when requested, then stop and
release the timer). -/
def cancelAny : Nat → Heap → Nat → Bool → GoErr → Heap
  | 0, h, _, _, _ => h
  | fuel+1, h, i, rm, e =>
    match h.node i with
    | some (.cancel c) =>
        ccCancel (fun hh ch e' => cancelAny fuel hh ch false e') h i c rm e
    | some (.timer c _ _) =>
        let h1 := ccCancel (fun hh ch e' => cancelAny fuel hh ch false e') h i c false e
        let h2 := if rm then removeChild h1 c.parent i else h1
        stopTimer h2 i
    | _ => h

/-- Canonical entry for a `cancel` invocation on node `i` (the node
count bounds the cascade depth, since tracked children are
younger nodes). -/
def cancel (h : Heap) (i : Nat) (rm : Bool) (e : GoErr) : Heap :=
  cancelAny h.nodes.length h i rm e

/-- The `time.AfterFunc` callback armed by `WithDeadline`:
`c.cancel(true, DeadlineExceeded)` on the timer node. -/
def fireTimer (h : Heap) (i : Nat) : Heap :=
  cancel h i true .deadlineExceeded

/-- Embedding of `propagateCancel`: nothing to do under a never-
cancelable parent; cancel the child immediately with the parent's cause
when the parent's done channel is already closed; otherwise register
the child with the located cancelable ancestor (or cancel immediately
if that ancestor's error is already set under its lock), falling back
to spawning a waiter goroutine when no native ancestor is found.  The
waiter's own behavior is concurrent and is represented only by the
`goroutines` counter the code increments. -/
def propagateCancel (h : Heap) (parent child : Nat) : Heap :=
  match ctxDone h parent with
  | (none, h1) => h1
  | (some d, h1) =>
    if (h1.chan d).getD false then
      match ctxErr h1 parent with
      | some e => cancelAny h1.nodes.length h1 child false e
      | none => h1
    else
      match parentCancelCtx h1 parent with
      | (some p, h2) =>
          match cstateAt h2 p with
          | some c =>
              match c.err with
              | some e => cancelAny h2.nodes.length h2 child false e
              | none => modifyCS h2 p (fun c0 => { c0 with children := c0.children ++ [child] })
          | none => h2
      | (none, h2) => { h2 with goroutines := h2.goroutines + 1 }

/-- Embedding of `newCancelCtx`. -/
def newCancelCtx (parent : Nat) : CState :=
  { parent := parent, done := none, children := [], err := none }

/-- Embedding of `WithCancel` (the returned trigger is
`cancel h i true .canceled` on the returned id). -/
def WithCancel (h : Heap) (parent : Nat) : Heap × Nat :=
  let i := h.nodes.length
  let h1 := { h with nodes := h.nodes ++ [.cancel (newCancelCtx parent)] }
  (propagateCancel h1 parent i, i)

/-- Embedding of `WithValue`; `none` models the `panic` on a nil parent
or nil key (every `GoKey` is comparable, so the comparability check
always passes in the model). -/
def WithValue (h : Heap) (parent : Option Nat) (key : Option GoKey) (val : GoVal) :
    Option (Heap × Nat) :=
  match parent, key with
  | none, _ => none
  | _, none => none
  | some p, some k => some ({ h with nodes := h.nodes ++ [.value p k val] }, h.nodes.length)

/-- Embedding of `WithDeadline` at current time `now` (`time.Time` as an
integer instant; `cur.Before(d)` is `cur < d`, `time.Until(d)` is
`d - now`): degrade to `WithCancel` when the parent's deadline is
earlier; otherwise build a timer node, propagate, cancel immediately
with `DeadlineExceeded` when the time has passed, and otherwise arm the
timer only if the node was not canceled during propagation. -/
def WithDeadline (h : Heap) (now : Int) (parent : Nat) (d : Int) : Heap × Nat :=
  match ctxDeadline h parent with
  | (cur, true) =>
    if cur < d then WithCancel h parent
    else WithDeadlineBuild h now parent d
  | (_, false) => WithDeadlineBuild h now parent d
where
  WithDeadlineBuild (h : Heap) (now : Int) (parent : Nat) (d : Int) : Heap × Nat :=
    let i := h.nodes.length
    let h1 := { h with nodes := h.nodes ++ [.timer (newCancelCtx parent) false d] }
    let h2 := propagateCancel h1 parent i
    if d - now ≤ 0 then
      (cancel h2 i true .deadlineExceeded, i)
    else
      match h2.node i with
      | some (.timer c2 _ dl2) =>
          if c2.err = none then (setNode h2 i (.timer c2 true dl2), i) else (h2, i)
      | _ => (h2, i)

/-- Embedding of `WithTimeout`. -/
def WithTimeout (h : Heap) (now : Int) (parent : Nat) (timeout : Int) : Heap × Nat :=
  WithDeadline h now parent (now + timeout)

/-- The initial heap: the `background` root (id 0) and the closed
`closedchan` (channel 0). -/
def h0 : Heap := { nodes := [.empty], chans := [true], goroutines := 0 }

/-- Parent ids decrease: every node's parent was allocated before it
(true of every heap the constructors build, since a node's parent
exists when the node is created). -/
def parentBoundB (h : Heap) (i : Nat) : Bool :=
  match h.node i with
  | some (.value p _ _) => decide (p < i)
  | some (.cancel c) => decide (c.parent < i)
  | some (.timer c _ _) => decide (c.parent < i)
  | _ => true

def wfParentsB (h : Heap) : Bool :=
  (List.range h.nodes.length).all (fun i => parentBoundB h i)

/-- No `valueCtx` binds the package-private internal key (its address is
not exported, so no user binding can ever use it). -/
def noCancelKeyB (h : Heap) : Bool :=
  h.nodes.all (fun n =>
    match n with
    | .value _ k _ => decide (k ≠ .cancelKey)
    | _ => true)

/-- Structural well-formedness of a heap: decreasing parent ids and no
binding of the internal key. -/
def skelOKB (h : Heap) : Bool := wfParentsB h && noCancelKeyB h

/-- Channel-state invariant of one node: a live node's stored done
channel (if any) is open; a canceled node's done channel exists and is
closed (`cancel` closes it in the same critical section that records
the error). -/
def chanOKB (h : Heap) (i : Nat) : Bool :=
  match cstateAt h i with
  | none => true
  | some c =>
    match c.err, c.done with
    | none, none => true
    | none, some d => decide (h.chan d = some false)
    | some _, some d => decide (h.chan d = some true)
    | some _, none => false

/-- Full heap invariant: structure, the closed shared channel at id 0,
and per-node channel-state consistency. -/
def heapOKB (h : Heap) : Bool :=
  skelOKB h && decide (h.chan closedChanId = some true) &&
    (List.range h.nodes.length).all (fun i => chanOKB h i)

/-- The cancellation-irrelevant shape of a node: kind, parent link,
value binding and deadline — everything `cancel` never modifies. -/
inductive Skel where
  | empty
  | value (parent : Nat) (key : GoKey) (val : GoVal)
  | cancel (parent : Nat)
  | timer (parent : Nat) (deadline : Int)
deriving DecidableEq, Repr

def Node.skel : Node → Skel
  | .empty => .empty
  | .value p k v => .value p k v
  | .cancel c => .cancel c.parent
  | .timer c _ dl => .timer c.parent dl

def skelAt (h : Heap) (i : Nat) : Option Skel := (h.node i).map Node.skel

/-- Ids of the tracked descendants of node `i` (inclusive), following
the `children` sets of the given heap to the given depth. -/
def reachF : Nat → Heap → Nat → List Nat
  | 0, _, _ => []
  | fuel+1, h, i => i :: (childrenAt h i).flatMap (fun ch => reachF fuel h ch)

/-- Tracked descendants of node `i` (inclusive): the node count bounds
the depth of any tracked tree. -/
def subtreeOf (h : Heap) (i : Nat) : List Nat :=
  reachF h.nodes.length h i

/-- Well-formed live cancellation subtree rooted at `i`: every member is
a live cancelable or deadline node (true of every tracked tree the
package builds: only live cancelable nodes are ever registered, and a
node is unregistered when it is canceled). -/
def goodB : Nat → Heap → Nat → Bool
  | 0, _, _ => false
  | fuel+1, h, i =>
    match cstateAt h i with
    | none => false
    | some c => c.err.isNone && c.children.all (fun ch => goodB fuel h ch)

/-- The key/value bindings on the path from node `i` to the root,
nearest first. -/
def bindingsF : Nat → Heap → Nat → List (GoKey × GoVal)
  | 0, _, _ => []
  | fuel+1, h, i =>
    match h.node i with
    | some (.value p k v) => (k, v) :: bindingsF fuel h p
    | some (.cancel c) => bindingsF fuel h c.parent
    | some (.timer c _ _) => bindingsF fuel h c.parent
    | _ => []

def ctxBindings (h : Heap) (i : Nat) : List (GoKey × GoVal) :=
  bindingsF (i+1) h i

/-- First value bound to `k` in an association list, Go-style: `vnil`
when absent. -/
def assocFind : List (GoKey × GoVal) → GoKey → GoVal
  | [], _ => .vnil
  | (k', v) :: t, k => if k = k' then v else assocFind t k

/- Concrete heaps used by witnesses and counterexamples. -/

/-- Root plus one cancelable child (node 1). -/
def exCancel1 : Heap × Nat := WithCancel h0 0

/-- Root → cancelable 1 → value-binding 2 (user key 7 ↦ 5) → cancelable 3
(tracked grandchild of node 1). -/
def exChain : Heap × Nat :=
  match WithValue exCancel1.1 (some exCancel1.2) (some (.user 7)) (.vint 5) with
  | some s2 => WithCancel s2.1 s2.2
  | none => (h0, 0)

/-- Root plus an armed deadline node (node 1, deadline 10, now 0). -/
def exTimer : Heap × Nat := WithDeadline h0 0 0 10

/-- Node 1's done channel materialized by an observer before any
cancellation. -/
def exDoneHeap : Heap := (ctxDone exCancel1.1 1).2

/-- Cancelable node 1 with a registered child 2, then node 1 canceled:
its done channel is a private channel (id 1) that is now closed. -/
def c3Heap : Heap := cancel (WithCancel (WithCancel h0 0).1 1).1 1 true .canceled

/-- A deadline node (node 1, deadline 10) with a plain cancelable child
(node 2) created by `WithCancel`. -/
def c4Heap : Heap := (WithCancel exTimer.1 exTimer.2).1

/-- Node 1 canceled first, then `WithDeadline` under it with an
already-passed target time (node 2). -/
def c6Heap : Heap := (WithDeadline (cancel exCancel1.1 1 true .canceled) 0 1 0).1

/-- A canceled cancelable node 1, plus a freshly allocated, not yet
propagated cancelable node 2 under it (the intermediate state of
`WithCancel` between allocation and `propagateCancel`). -/
def c8pre : Heap := cancel exCancel1.1 1 true .canceled

def c8Heap : Heap := { c8pre with nodes := c8pre.nodes ++ [.cancel (newCancelCtx 1)] }

def WfParents (h : Heap) : Prop := ∀ i p, parentAt h i = some p → p < i

def NoCancelKey (h : Heap) : Prop :=
  ∀ i p k v, h.node i = some (.value p k v) → k ≠ GoKey.cancelKey

/-- Parent of a skeleton. -/
def skelParent : Skel → Option Nat
  | .empty => none
  | .value p _ _ => some p
  | .cancel p => some p
  | .timer p _ => some p

/-- One heap evolves into another by cancellation-algorithm steps:
node count and skeletons unchanged, recorded errors and closed channels
permanent, child sets only shrink, stored done channels stable. -/
def Evolves (h h' : Heap) : Prop :=
  h'.nodes.length = h.nodes.length ∧
  (∀ j, skelAt h' j = skelAt h j) ∧
  (∀ j e0, errAt h j = some e0 → errAt h' j = some e0) ∧
  (∀ j, childrenAt h' j ⊆ childrenAt h j) ∧
  (∀ d, h.chan d = some true → h'.chan d = some true) ∧
  (∀ j d, doneAt h j = some d → doneAt h' j = some d)

/- Basic lemmas about the heap primitives. -/

lemma node_lt_length {h : Heap} {i : Nat} {n : Node} (hn : h.node i = some n) :
    i < h.nodes.length := by
  by_contra hc
  unfold Heap.node at hn
  rw [List.getElem?_eq_none_iff.mpr (Nat.le_of_not_lt hc)] at hn
  exact Option.noConfusion hn

lemma chan_lt_length {h : Heap} {d : Nat} {b : Bool} (hb : h.chan d = some b) :
    d < h.chans.length := by
  by_contra hc
  unfold Heap.chan at hb
  rw [List.getElem?_eq_none_iff.mpr (Nat.le_of_not_lt hc)] at hb
  exact Option.noConfusion hb

lemma chans_setNode (h : Heap) (i : Nat) (n : Node) : (setNode h i n).chans = h.chans := rfl

lemma length_setNode (h : Heap) (i : Nat) (n : Node) :
    (setNode h i n).nodes.length = h.nodes.length := List.length_set h.nodes i n

lemma node_setNode_self {h : Heap} {i : Nat} (n : Node) (hi : i < h.nodes.length) :
    (setNode h i n).node i = some n := by
  unfold setNode Heap.node
  exact List.getElem?_set_self hi

lemma node_setNode_ne {h : Heap} {i j : Nat} (n : Node) (hne : i ≠ j) :
    (setNode h i n).node j = h.node j := by
  unfold setNode Heap.node
  exact List.getElem?_set_ne hne

lemma chans_modifyCS (h : Heap) (i : Nat) (f : CState → CState) :
    (modifyCS h i f).chans = h.chans := by
  unfold modifyCS
  cases hn : h.node i with
  | none => rfl
  | some n => cases n <;> rfl

lemma length_modifyCS (h : Heap) (i : Nat) (f : CState → CState) :
    (modifyCS h i f).nodes.length = h.nodes.length := by
  unfold modifyCS
  cases hn : h.node i with
  | none => rfl
  | some n => cases n <;> simp [length_setNode]

lemma node_modifyCS_ne {h : Heap} {i j : Nat} (f : CState → CState) (hne : i ≠ j) :
    (modifyCS h i f).node j = h.node j := by
  unfold modifyCS
  cases hn : h.node i with
  | none => rfl
  | some n => cases n <;> simp [node_setNode_ne _ hne]

lemma node_modifyCS_cancel {h : Heap} {i : Nat} {c : CState} (f : CState → CState)
    (hn : h.node i = some (.cancel c)) :
    (modifyCS h i f).node i = some (.cancel (f c)) := by
  unfold modifyCS
  rw [hn]
  exact node_setNode_self _ (node_lt_length hn)

lemma node_modifyCS_timer {h : Heap} {i : Nat} {c : CState} {a : Bool} {dl : Int}
    (f : CState → CState) (hn : h.node i = some (.timer c a dl)) :
    (modifyCS h i f).node i = some (.timer (f c) a dl) := by
  unfold modifyCS
  rw [hn]
  exact node_setNode_self _ (node_lt_length hn)

lemma cstateAt_modifyCS_self {h : Heap} {i : Nat} {c : CState} (f : CState → CState)
    (hc : cstateAt h i = some c) :
    cstateAt (modifyCS h i f) i = some (f c) := by
  unfold cstateAt at hc ⊢
  cases hn : h.node i with
  | none => rw [hn] at hc; exact Option.noConfusion hc
  | some n =>
    cases n with
    | cancel c0 =>
        rw [hn] at hc
        cases hc
        rw [node_modifyCS_cancel f hn]
    | timer c0 a dl =>
        rw [hn] at hc
        cases hc
        rw [node_modifyCS_timer f hn]
    | empty => rw [hn] at hc; exact Option.noConfusion hc
    | value p k v => rw [hn] at hc; exact Option.noConfusion hc

lemma cstateAt_modifyCS_ne {h : Heap} {i j : Nat} (f : CState → CState) (hne : i ≠ j) :
    cstateAt (modifyCS h i f) j = cstateAt h j := by
  unfold cstateAt
  rw [node_modifyCS_ne f hne]

lemma cstateAt_isSome_lt {h : Heap} {i : Nat} {c : CState} (hc : cstateAt h i = some c) :
    i < h.nodes.length := by
  unfold cstateAt at hc
  cases hn : h.node i with
  | none => rw [hn] at hc; exact Option.noConfusion hc
  | some n => exact node_lt_length hn

lemma errAt_modifyCS_ne {h : Heap} {i j : Nat} (f : CState → CState) (hne : i ≠ j) :
    errAt (modifyCS h i f) j = errAt h j := by
  unfold errAt
  rw [cstateAt_modifyCS_ne f hne]

lemma doneAt_modifyCS_ne {h : Heap} {i j : Nat} (f : CState → CState) (hne : i ≠ j) :
    doneAt (modifyCS h i f) j = doneAt h j := by
  unfold doneAt
  rw [cstateAt_modifyCS_ne f hne]

lemma childrenAt_modifyCS_ne {h : Heap} {i j : Nat} (f : CState → CState) (hne : i ≠ j) :
    childrenAt (modifyCS h i f) j = childrenAt h j := by
  unfold childrenAt
  rw [cstateAt_modifyCS_ne f hne]

lemma timerAt_modifyCS (h : Heap) (i : Nat) (f : CState → CState) (j : Nat) :
    timerAt (modifyCS h i f) j = timerAt h j := by
  rcases eq_or_ne i j with rfl | hne
  · cases hn : h.node i with
    | none => simp [timerAt, modifyCS, hn]
    | some n =>
      cases n with
      | timer c a dl => simp [timerAt, node_modifyCS_timer f hn, hn]
      | cancel c => simp [timerAt, node_modifyCS_cancel f hn, hn]
      | empty => simp [timerAt, modifyCS, hn]
      | value p k v => simp [timerAt, modifyCS, hn]
  · unfold timerAt
    rw [node_modifyCS_ne f hne]

/- Skeleton transfer: operations that only touch cancellation state
preserve every node's skeleton, and walks that read only skeletons give
the same answers on skeleton-equal heaps. -/

lemma skelAt_modifyCS {h : Heap} {i : Nat} (f : CState → CState)
    (hf : ∀ c, (f c).parent = c.parent) (j : Nat) :
    skelAt (modifyCS h i f) j = skelAt h j := by
  rcases eq_or_ne i j with rfl | hne
  · cases hn : h.node i with
    | none => simp [skelAt, modifyCS, hn]
    | some n =>
      cases n with
      | timer c a dl => simp [skelAt, node_modifyCS_timer f hn, hn, Node.skel, hf]
      | cancel c => simp [skelAt, node_modifyCS_cancel f hn, hn, Node.skel, hf]
      | empty => simp [skelAt, modifyCS, hn]
      | value p k v => simp [skelAt, modifyCS, hn]
  · unfold skelAt
    rw [node_modifyCS_ne f hne]

lemma skel_value_inv {n : Node} {p : Nat} {k : GoKey} {v : GoVal}
    (hs : n.skel = .value p k v) : n = .value p k v := by
  cases n <;> simp [Node.skel] at hs
  obtain ⟨rfl, rfl, rfl⟩ := hs
  rfl

lemma skel_empty_inv {n : Node} (hs : n.skel = .empty) : n = .empty := by
  cases n <;> simp [Node.skel] at hs
  rfl

lemma skel_cancel_inv {n : Node} {p : Nat} (hs : n.skel = .cancel p) :
    ∃ c : CState, n = .cancel c ∧ c.parent = p := by
  cases n <;> simp [Node.skel] at hs
  exact ⟨_, rfl, hs⟩

lemma skel_timer_inv {n : Node} {p : Nat} {dl : Int} (hs : n.skel = .timer p dl) :
    ∃ (c : CState) (a : Bool), n = .timer c a dl ∧ c.parent = p := by
  cases n <;> simp [Node.skel] at hs
  obtain ⟨h1, h2⟩ := hs
  subst h2
  exact ⟨_, _, rfl, h1⟩

lemma skelAt_none_iff {h : Heap} {j : Nat} : skelAt h j = none ↔ h.node j = none := by
  unfold skelAt
  cases h.node j <;> simp

lemma length_eq_of_skel {h h' : Heap} (hs : ∀ j, skelAt h' j = skelAt h j) :
    h'.nodes.length = h.nodes.length := by
  by_contra hne
  rcases Nat.lt_or_ge h'.nodes.length h.nodes.length with hlt | hge
  · have h1 : h'.node h'.nodes.length = none :=
      List.getElem?_eq_none_iff.mpr (Nat.le_refl _)
    have h2 : skelAt h h'.nodes.length = none := by
      rw [← hs]; exact skelAt_none_iff.mpr h1
    have h3 := skelAt_none_iff.mp h2
    unfold Heap.node at h3
    rw [List.getElem?_eq_none_iff] at h3
    omega
  · have hlt : h.nodes.length < h'.nodes.length := by omega
    have h1 : h.node h.nodes.length = none :=
      List.getElem?_eq_none_iff.mpr (Nat.le_refl _)
    have h2 : skelAt h' h.nodes.length = none := by
      rw [hs]; exact skelAt_none_iff.mpr h1
    have h3 := skelAt_none_iff.mp h2
    unfold Heap.node at h3
    rw [List.getElem?_eq_none_iff] at h3
    omega

/- Well-formedness in propositional form, and transfer lemmas. -/

lemma wfParents_of_B {h : Heap} (hw : wfParentsB h = true) : WfParents h := by
  intro i p hp
  unfold wfParentsB at hw
  rw [List.all_eq_true] at hw
  unfold parentAt at hp
  cases hn : h.node i with
  | none => rw [hn] at hp; exact Option.noConfusion hp
  | some n =>
    have hi : i < h.nodes.length := node_lt_length hn
    have hb := hw i (List.mem_range.mpr hi)
    unfold parentBoundB at hb
    rw [hn] at hb hp
    cases n with
    | value q k v =>
        simp only [Option.some.injEq] at hp
        subst hp
        exact of_decide_eq_true hb
    | cancel c =>
        simp only [Option.some.injEq] at hp
        subst hp
        exact of_decide_eq_true hb
    | timer c a dl =>
        simp only [Option.some.injEq] at hp
        subst hp
        exact of_decide_eq_true hb
    | empty => exact Option.noConfusion hp

lemma noCancelKey_of_B {h : Heap} (hw : noCancelKeyB h = true) : NoCancelKey h := by
  intro i p k v hn
  unfold noCancelKeyB at hw
  rw [List.all_eq_true] at hw
  have hmem : Node.value p k v ∈ h.nodes := by
    unfold Heap.node at hn
    exact List.getElem?_mem hn
  have := hw _ hmem
  exact of_decide_eq_true this

lemma skelOK_wf {h : Heap} (hw : skelOKB h = true) : WfParents h := by
  unfold skelOKB at hw
  rw [Bool.and_eq_true] at hw
  exact wfParents_of_B hw.1

lemma skelOK_nck {h : Heap} (hw : skelOKB h = true) : NoCancelKey h := by
  unfold skelOKB at hw
  rw [Bool.and_eq_true] at hw
  exact noCancelKey_of_B hw.2

lemma parentAt_eq_skel (h : Heap) (i : Nat) :
    parentAt h i = (skelAt h i).bind skelParent := by
  unfold parentAt skelAt
  cases h.node i with
  | none => rfl
  | some n => cases n <;> rfl

lemma wfParents_of_skel {h h' : Heap} (hs : ∀ j, skelAt h' j = skelAt h j)
    (hw : WfParents h) : WfParents h' := by
  intro i p hp
  rw [parentAt_eq_skel, hs i, ← parentAt_eq_skel] at hp
  exact hw i p hp

lemma node_some_of_skel {h h' : Heap} {i : Nat} {n : Node}
    (hs : skelAt h' i = skelAt h i) (hn : h.node i = some n) :
    ∃ n', h'.node i = some n' ∧ n'.skel = n.skel := by
  unfold skelAt at hs
  rw [hn] at hs
  cases hn' : h'.node i with
  | none => rw [hn'] at hs; exact Option.noConfusion hs
  | some m =>
      rw [hn'] at hs
      simp only [Option.map_some', Option.some.injEq] at hs
      exact ⟨m, rfl, hs⟩

lemma node_none_of_skel {h h' : Heap} {i : Nat}
    (hs : skelAt h' i = skelAt h i) (hn : h.node i = none) : h'.node i = none := by
  unfold skelAt at hs
  rw [hn] at hs
  cases hn' : h'.node i with
  | none => rfl
  | some m => rw [hn'] at hs; exact Option.noConfusion hs

lemma noCancelKey_of_skel {h h' : Heap} (hs : ∀ j, skelAt h' j = skelAt h j)
    (hw : NoCancelKey h) : NoCancelKey h' := by
  intro i p k v hn
  have hsi := hs i
  unfold skelAt at hsi
  rw [hn] at hsi
  cases hm : h.node i with
  | none => rw [hm] at hsi; exact Option.noConfusion hsi
  | some m =>
      rw [hm] at hsi
      simp only [Option.map_some', Option.some.injEq] at hsi
      cases m with
      | value p2 k2 v2 =>
          simp only [Node.skel, Skel.value.injEq] at hsi
          obtain ⟨h1, h2, h3⟩ := hsi
          subst h2
          exact hw i p2 k v2 hm
      | empty => simp [Node.skel] at hsi
      | cancel c => simp [Node.skel] at hsi
      | timer c a dl => simp [Node.skel] at hsi

/-- The `nearest cancelable` walk reads only skeletons. -/
lemma nearestF_congr {h h' : Heap} (hs : ∀ j, skelAt h' j = skelAt h j) :
    ∀ fuel i, nearestF fuel h' i = nearestF fuel h i := by
  intro fuel
  induction fuel with
  | zero => intro i; rfl
  | succ f IH =>
    intro i
    unfold nearestF
    cases hn : h.node i with
    | none => rw [node_none_of_skel (hs i) hn]
    | some n =>
      obtain ⟨n', hn', hsk⟩ := node_some_of_skel (hs i) hn
      rw [hn']
      cases n with
      | value p k v =>
          rw [skel_value_inv hsk]
          exact IH p
      | cancel c =>
          obtain ⟨c', rfl, -⟩ := skel_cancel_inv hsk
          rfl
      | timer c a dl =>
          obtain ⟨c', a', rfl, -⟩ := skel_timer_inv hsk
          rfl
      | empty => rw [skel_empty_inv hsk]

/- Fuel irrelevance for parent-chain walks (any fuel above the node id
gives the canonical answer when parent ids decrease). -/

lemma valueF_fuel {h : Heap} (hw : WfParents h) (k : GoKey) :
    ∀ i f, i < f → valueF f h i k = valueF (i+1) h i k := by
  intro i
  induction i using Nat.strong_induction_on with
  | _ i IH =>
    intro f hf
    obtain ⟨f0, rfl⟩ : ∃ f0, f = f0 + 1 := ⟨f - 1, by omega⟩
    unfold valueF
    cases hn : h.node i with
    | none => rfl
    | some n =>
      cases n with
      | value p kk v =>
        have hp : p < i := hw i p (by unfold parentAt; rw [hn])
        by_cases hk : k = kk
        · simp [hk]
        · simp only [if_neg hk]
          rw [IH p hp f0 (by omega), IH p hp i hp]
      | cancel c =>
        have hp : c.parent < i := hw i c.parent (by unfold parentAt; rw [hn])
        by_cases hk : k = GoKey.cancelKey
        · simp [hk]
        · simp only [if_neg hk]
          rw [IH c.parent hp f0 (by omega), IH c.parent hp i hp]
      | timer c a dl =>
        have hp : c.parent < i := hw i c.parent (by unfold parentAt; rw [hn])
        by_cases hk : k = GoKey.cancelKey
        · simp [hk]
        · simp only [if_neg hk]
          rw [IH c.parent hp f0 (by omega), IH c.parent hp i hp]
      | empty => rfl

lemma deadlineF_fuel {h : Heap} (hw : WfParents h) :
    ∀ i f, i < f → deadlineF f h i = deadlineF (i+1) h i := by
  intro i
  induction i using Nat.strong_induction_on with
  | _ i IH =>
    intro f hf
    obtain ⟨f0, rfl⟩ : ∃ f0, f = f0 + 1 := ⟨f - 1, by omega⟩
    unfold deadlineF
    cases hn : h.node i with
    | none => rfl
    | some n =>
      cases n with
      | value p kk v =>
        have hp : p < i := hw i p (by unfold parentAt; rw [hn])
        simp only [IH p hp f0 (by omega), IH p hp i hp]
      | cancel c =>
        have hp : c.parent < i := hw i c.parent (by unfold parentAt; rw [hn])
        simp only [IH c.parent hp f0 (by omega), IH c.parent hp i hp]
      | timer c a dl => rfl
      | empty => rfl

lemma nearestF_le {h : Heap} (hw : WfParents h) :
    ∀ fuel i a, nearestF fuel h i = some a → a ≤ i := by
  intro fuel
  induction fuel with
  | zero => intro i a hx; exact Option.noConfusion hx
  | succ f IH =>
    intro i a hx
    unfold nearestF at hx
    cases hn : h.node i with
    | none => rw [hn] at hx; exact Option.noConfusion hx
    | some n =>
      cases n with
      | value p k v =>
        rw [hn] at hx
        have hp : p < i := hw i p (by unfold parentAt; rw [hn])
        exact Nat.le_trans (IH p a hx) (Nat.le_of_lt hp)
      | cancel c =>
        rw [hn] at hx
        cases hx
        exact Nat.le_refl i
      | timer c a2 dl =>
        rw [hn] at hx
        cases hx
        exact Nat.le_refl i
      | empty => rw [hn] at hx; exact Option.noConfusion hx

lemma nearestF_cstate {h : Heap} :
    ∀ fuel i a, nearestF fuel h i = some a → ∃ c, cstateAt h a = some c := by
  intro fuel
  induction fuel with
  | zero => intro i a hx; exact Option.noConfusion hx
  | succ f IH =>
    intro i a hx
    unfold nearestF at hx
    cases hn : h.node i with
    | none => rw [hn] at hx; exact Option.noConfusion hx
    | some n =>
      cases n with
      | value p k v => rw [hn] at hx; exact IH p a hx
      | cancel c =>
        rw [hn] at hx
        cases hx
        exact ⟨c, by unfold cstateAt; rw [hn]⟩
      | timer c a2 dl =>
        rw [hn] at hx
        cases hx
        exact ⟨c, by unfold cstateAt; rw [hn]⟩
      | empty => rw [hn] at hx; exact Option.noConfusion hx

/- Parallel characterizations of the interface methods by the nearest
cancelable ancestor. -/

lemma errF_nearest (h : Heap) :
    ∀ fuel i, errF fuel h i = (nearestF fuel h i).bind (fun a => errAt h a) := by
  intro fuel
  induction fuel with
  | zero => intro i; rfl
  | succ f IH =>
    intro i
    unfold errF nearestF
    cases hn : h.node i with
    | none => rfl
    | some n =>
      cases n with
      | value p k v => exact IH p
      | cancel c => simp [errAt, cstateAt, hn]
      | timer c a dl => simp [errAt, cstateAt, hn]
      | empty => rfl

lemma valueF_cancelKey {h : Heap} (hnck : NoCancelKey h) :
    ∀ fuel i, valueF fuel h i .cancelKey =
      (nearestF fuel h i).elim GoVal.vnil (fun a => GoVal.vctx a) := by
  intro fuel
  induction fuel with
  | zero => intro i; rfl
  | succ f IH =>
    intro i
    unfold valueF nearestF
    cases hn : h.node i with
    | none => rfl
    | some n =>
      cases n with
      | value p k v =>
        have hk : GoKey.cancelKey ≠ k := fun he => hnck i p k v hn he.symm
        simp only [if_neg hk]
        exact IH p
      | cancel c => simp
      | timer c a dl => simp
      | empty => rfl

lemma doneF_nearest (h : Heap) :
    ∀ fuel i, doneF fuel h i =
      match nearestF fuel h i with
      | none => (none, h)
      | some a =>
        match doneAt h a with
        | some d => (some d, h)
        | none => (some h.chans.length, doneAlloc h a) := by
  intro fuel
  induction fuel with
  | zero => intro i; rfl
  | succ f IH =>
    intro i
    unfold doneF nearestF
    cases hn : h.node i with
    | none => rfl
    | some n =>
      cases n with
      | value p k v => exact IH p
      | cancel c =>
        cases hcd : c.done <;> simp [doneAt, cstateAt, hn, hcd]
      | timer c a dl =>
        cases hcd : c.done <;> simp [doneAt, cstateAt, hn, hcd]
      | empty => rfl

/- Agreement on an initial segment: walks started below the length of
the shorter heap cannot see appended nodes. -/

lemma valueF_agree {h h' : Heap} (hw : WfParents h)
    (hag : ∀ m, m < h.nodes.length → h'.node m = h.node m) (k : GoKey) :
    ∀ fuel i, i < h.nodes.length → valueF fuel h' i k = valueF fuel h i k := by
  intro fuel
  induction fuel with
  | zero => intro i hi; rfl
  | succ f IH =>
    intro i hi
    unfold valueF
    rw [hag i hi]
    cases hn : h.node i with
    | none => rfl
    | some n =>
      cases n with
      | value p kk v =>
        have hp : p < i := hw i p (by unfold parentAt; rw [hn])
        by_cases hk : k = kk
        · simp [hk]
        · simp only [if_neg hk]
          exact IH p (by omega)
      | cancel c =>
        have hp : c.parent < i := hw i c.parent (by unfold parentAt; rw [hn])
        by_cases hk : k = GoKey.cancelKey
        · simp [hk]
        · simp only [if_neg hk]
          exact IH c.parent (by omega)
      | timer c a dl =>
        have hp : c.parent < i := hw i c.parent (by unfold parentAt; rw [hn])
        by_cases hk : k = GoKey.cancelKey
        · simp [hk]
        · simp only [if_neg hk]
          exact IH c.parent (by omega)
      | empty => rfl

lemma nearestF_agree {h h' : Heap} (hw : WfParents h)
    (hag : ∀ m, m < h.nodes.length → h'.node m = h.node m) :
    ∀ fuel i, i < h.nodes.length → nearestF fuel h' i = nearestF fuel h i := by
  intro fuel
  induction fuel with
  | zero => intro i hi; rfl
  | succ f IH =>
    intro i hi
    unfold nearestF
    rw [hag i hi]
    cases hn : h.node i with
    | none => rfl
    | some n =>
      cases n with
      | value p kk v =>
        have hp : p < i := hw i p (by unfold parentAt; rw [hn])
        exact IH p (by omega)
      | cancel c => rfl
      | timer c a dl => rfl
      | empty => rfl

/- Field-preserving updates. -/

lemma modifyCS_no_cstate {h : Heap} {i : Nat} (f : CState → CState)
    (hc : cstateAt h i = none) : modifyCS h i f = h := by
  unfold cstateAt at hc
  unfold modifyCS
  cases hn : h.node i with
  | none => rfl
  | some n => cases n <;> rw [hn] at hc <;> first | rfl | exact Option.noConfusion hc

lemma errAt_modifyCS_pres {h : Heap} {i : Nat} (f : CState → CState)
    (hf : ∀ c, (f c).err = c.err) (j : Nat) :
    errAt (modifyCS h i f) j = errAt h j := by
  rcases eq_or_ne i j with rfl | hne
  · cases hc : cstateAt h i with
    | none => rw [modifyCS_no_cstate f hc]
    | some c =>
      unfold errAt
      rw [cstateAt_modifyCS_self f hc, hc]
      simp [hf]
  · exact errAt_modifyCS_ne f hne

lemma doneAt_modifyCS_pres {h : Heap} {i : Nat} (f : CState → CState)
    (hf : ∀ c, (f c).done = c.done) (j : Nat) :
    doneAt (modifyCS h i f) j = doneAt h j := by
  rcases eq_or_ne i j with rfl | hne
  · cases hc : cstateAt h i with
    | none => rw [modifyCS_no_cstate f hc]
    | some c =>
      unfold doneAt
      rw [cstateAt_modifyCS_self f hc, hc]
      simp [hf]
  · exact doneAt_modifyCS_ne f hne

lemma childrenAt_modifyCS_pres {h : Heap} {i : Nat} (f : CState → CState)
    (hf : ∀ c, (f c).children = c.children) (j : Nat) :
    childrenAt (modifyCS h i f) j = childrenAt h j := by
  rcases eq_or_ne i j with rfl | hne
  · cases hc : cstateAt h i with
    | none => rw [modifyCS_no_cstate f hc]
    | some c =>
      unfold childrenAt
      rw [cstateAt_modifyCS_self f hc, hc]
      simp [hf]
  · exact childrenAt_modifyCS_ne f hne

lemma chan_modifyCS (h : Heap) (i : Nat) (f : CState → CState) (d : Nat) :
    (modifyCS h i f).chan d = h.chan d := by
  unfold Heap.chan
  rw [chans_modifyCS]

/-- Invariants preserved by every step of a fold are preserved by the
fold. -/
lemma foldl_inv {α : Type} (P : Heap → Prop) (f : Heap → α → Heap) (l : List α)
    (step : ∀ hh a, a ∈ l → P hh → P (f hh a)) :
    ∀ hh, P hh → P (l.foldl f hh) := by
  induction l with
  | nil => intro hh hP; exact hP
  | cons x t IH =>
    intro hh hP
    exact IH (fun hh' a ha hP' => step hh' a (List.mem_cons_of_mem x ha) hP')
      (f hh x) (step hh x (List.mem_cons_self x t) hP)

/- The `Evolves` relation and its closure under each primitive step. -/

lemma evolves_refl (h : Heap) : Evolves h h :=
  ⟨rfl, fun _ => rfl, fun _ _ he => he, fun _ => List.Subset.refl _,
   fun _ hd => hd, fun _ _ hd => hd⟩

lemma evolves_trans {h1 h2 h3 : Heap} (a : Evolves h1 h2) (b : Evolves h2 h3) :
    Evolves h1 h3 := by
  obtain ⟨a1, a2, a3, a4, a5, a6⟩ := a
  obtain ⟨b1, b2, b3, b4, b5, b6⟩ := b
  exact ⟨b1.trans a1, fun j => (b2 j).trans (a2 j),
    fun j e0 he => b3 j e0 (a3 j e0 he),
    fun j => (b4 j).trans (a4 j),
    fun d hd => b5 d (a5 d hd),
    fun j d hd => b6 j d (a6 j d hd)⟩

lemma length_modifyCS_nodes (h : Heap) (i : Nat) (f : CState → CState) :
    (modifyCS h i f).nodes.length = h.nodes.length := length_modifyCS h i f

lemma evolves_err_set {h : Heap} {i : Nat} {e : GoErr}
    (hlive : errAt h i = none) :
    Evolves h (modifyCS h i (fun c0 => { c0 with err := some e })) := by
  refine ⟨length_modifyCS h i _, skelAt_modifyCS _ (fun c => rfl),
    ?_, ?_, ?_, ?_⟩
  · intro j e0 he
    rcases eq_or_ne i j with rfl | hne
    · rw [hlive] at he; exact Option.noConfusion he
    · rw [errAt_modifyCS_ne _ hne]; exact he
  · intro j
    rw [childrenAt_modifyCS_pres (fun c0 => { c0 with err := some e }) (fun c => rfl) j]
    exact List.Subset.refl _
  · intro d hd
    rw [chan_modifyCS]; exact hd
  · intro j d hd
    rw [doneAt_modifyCS_pres (fun c0 => { c0 with err := some e }) (fun c => rfl) j]; exact hd

lemma evolves_done_set {h : Heap} {i : Nat} {d0 : Nat}
    (hnd : doneAt h i = none) :
    Evolves h (modifyCS h i (fun c0 => { c0 with done := some d0 })) := by
  refine ⟨length_modifyCS h i _, skelAt_modifyCS _ (fun c => rfl),
    ?_, ?_, ?_, ?_⟩
  · intro j e0 he
    rw [errAt_modifyCS_pres (fun c0 => { c0 with done := some d0 }) (fun c => rfl) j]; exact he
  · intro j
    rw [childrenAt_modifyCS_pres (fun c0 => { c0 with done := some d0 }) (fun c => rfl) j]
    exact List.Subset.refl _
  · intro d hd
    rw [chan_modifyCS]; exact hd
  · intro j d hd
    rcases eq_or_ne i j with rfl | hne
    · rw [hnd] at hd; exact Option.noConfusion hd
    · rw [doneAt_modifyCS_ne _ hne]; exact hd

lemma evolves_clear_children (h : Heap) (i : Nat) :
    Evolves h (modifyCS h i (fun c0 => { c0 with children := [] })) := by
  refine ⟨length_modifyCS h i _, skelAt_modifyCS _ (fun c => rfl),
    ?_, ?_, ?_, ?_⟩
  · intro j e0 he
    rw [errAt_modifyCS_pres (fun c0 => { c0 with children := ([] : List Nat) }) (fun c => rfl) j]
    exact he
  · intro j
    rcases eq_or_ne i j with rfl | hne
    · cases hc : cstateAt h i with
      | none => rw [modifyCS_no_cstate _ hc]; exact List.Subset.refl _
      | some c =>
        unfold childrenAt
        rw [cstateAt_modifyCS_self _ hc, hc]
        intro x hx
        simp at hx
    · rw [childrenAt_modifyCS_ne _ hne]
      exact List.Subset.refl _
  · intro d hd
    rw [chan_modifyCS]; exact hd
  · intro j d hd
    rw [doneAt_modifyCS_pres (fun c0 => { c0 with children := ([] : List Nat) }) (fun c => rfl) j]
    exact hd

lemma evolves_erase_child (h : Heap) (i : Nat) (ch : Nat) :
    Evolves h (modifyCS h i (fun c0 => { c0 with children := c0.children.erase ch })) := by
  refine ⟨length_modifyCS h i _, skelAt_modifyCS _ (fun c => rfl),
    ?_, ?_, ?_, ?_⟩
  · intro j e0 he
    rw [errAt_modifyCS_pres (fun c0 => { c0 with children := c0.children.erase ch })
      (fun c => rfl) j]
    exact he
  · intro j
    rcases eq_or_ne i j with rfl | hne
    · cases hc : cstateAt h i with
      | none => rw [modifyCS_no_cstate _ hc]; exact List.Subset.refl _
      | some c =>
        unfold childrenAt
        rw [cstateAt_modifyCS_self _ hc, hc]
        simp only [Option.map_some', Option.getD_some]
        exact List.erase_subset ch c.children
    · rw [childrenAt_modifyCS_ne _ hne]
      exact List.Subset.refl _
  · intro d hd
    rw [chan_modifyCS]; exact hd
  · intro j d hd
    rw [doneAt_modifyCS_pres (fun c0 => { c0 with children := c0.children.erase ch })
      (fun c => rfl) j]
    exact hd

lemma evolves_close_chan (h : Heap) (d0 : Nat) :
    Evolves h { h with chans := h.chans.set d0 true } := by
  refine ⟨rfl, fun j => rfl, fun j e0 he => he, fun j => List.Subset.refl _,
    ?_, fun j d hd => hd⟩
  intro d hd
  unfold Heap.chan at hd ⊢
  rcases eq_or_ne d0 d with rfl | hne
  · rw [List.getElem?_set_self (chan_lt_length hd)]
  · rw [List.getElem?_set_ne hne]; exact hd

lemma evolves_doneAlloc {h : Heap} {a : Nat} (hda : doneAt h a = none) :
    Evolves h (doneAlloc h a) := by
  unfold doneAlloc
  have base : ∀ j, ({ h with chans := h.chans ++ [false] } : Heap).node j = h.node j :=
    fun j => rfl
  refine ⟨length_modifyCS _ _ _, ?_, ?_, ?_, ?_, ?_⟩
  · intro j
    rw [skelAt_modifyCS (fun c0 => { c0 with done := some h.chans.length }) (fun c => rfl) j]
    rfl
  · intro j e0 he
    rw [errAt_modifyCS_pres (fun c0 => { c0 with done := some h.chans.length }) (fun c => rfl) j]
    exact he
  · intro j
    rw [childrenAt_modifyCS_pres (fun c0 => { c0 with done := some h.chans.length })
      (fun c => rfl) j]
    exact List.Subset.refl _
  · intro d hd
    rw [chan_modifyCS]
    unfold Heap.chan at hd ⊢
    simp only []
    rw [List.getElem?_append_left (chan_lt_length hd)]
    exact hd
  · intro j d hd
    rcases eq_or_ne a j with rfl | hne
    · rw [hda] at hd; exact Option.noConfusion hd
    · rw [doneAt_modifyCS_ne _ hne]
      exact hd

lemma evolves_stopTimer (h : Heap) (i : Nat) : Evolves h (stopTimer h i) := by
  unfold stopTimer
  cases hn : h.node i with
  | none => exact evolves_refl h
  | some n =>
    cases n with
    | timer c a dl =>
      have hlen : (setNode h i (.timer c false dl)).nodes.length = h.nodes.length :=
        length_setNode h i _
      refine ⟨hlen, ?_, ?_, ?_, ?_, ?_⟩
      · intro j
        rcases eq_or_ne i j with rfl | hne
        · unfold skelAt
          rw [node_setNode_self _ (node_lt_length hn), hn]
          simp [Node.skel]
        · unfold skelAt
          rw [node_setNode_ne _ hne]
      · intro j e0 he
        rcases eq_or_ne i j with rfl | hne
        · unfold errAt cstateAt at he ⊢
          rw [node_setNode_self _ (node_lt_length hn)]
          rw [hn] at he
          exact he
        · unfold errAt cstateAt
          rw [node_setNode_ne _ hne]
          exact he
      · intro j
        rcases eq_or_ne i j with rfl | hne
        · unfold childrenAt cstateAt
          rw [node_setNode_self _ (node_lt_length hn), hn]
          exact List.Subset.refl _
        · unfold childrenAt cstateAt
          rw [node_setNode_ne _ hne]
          exact List.Subset.refl _
      · intro d hd
        exact hd
      · intro j d hd
        rcases eq_or_ne i j with rfl | hne
        · unfold doneAt cstateAt at hd ⊢
          rw [node_setNode_self _ (node_lt_length hn)]
          rw [hn] at hd
          exact hd
        · unfold doneAt cstateAt
          rw [node_setNode_ne _ hne]
          exact hd
    | empty => exact evolves_refl h
    | value p k v => exact evolves_refl h
    | cancel c => exact evolves_refl h

lemma evolves_doneF_snd (h : Heap) (fuel i : Nat) :
    Evolves h (doneF fuel h i).2 := by
  rw [doneF_nearest h fuel i]
  cases hx : nearestF fuel h i with
  | none => exact evolves_refl h
  | some a =>
    cases hd : doneAt h a with
    | some d => simp only [hd]; exact evolves_refl h
    | none => simp only [hd]; exact evolves_doneAlloc hd

lemma pcc_snd (h : Heap) (par : Nat) :
    (parentCancelCtx h par).2 = (ctxDone h par).2 := by
  unfold parentCancelCtx
  cases hx : ctxDone h par with
  | mk o h1 =>
    cases o with
    | none => rfl
    | some d =>
      by_cases hd : d = closedChanId
      · simp [hd]
      · simp only [if_neg hd]
        cases hv : ctxValue h1 par .cancelKey with
        | vctx p =>
          cases hcs : cstateAt h1 p with
          | some c =>
            by_cases he : c.done = some d
            · simp [hv, hcs, he]
            · simp [hv, hcs, he]
          | none => simp [hv, hcs]
        | vnil => simp [hv]
        | vint n => simp [hv]

lemma evolves_removeChild (h : Heap) (par ch : Nat) :
    Evolves h (removeChild h par ch) := by
  unfold removeChild
  cases hx : parentCancelCtx h par with
  | mk o h1 =>
    have hh1 : h1 = (ctxDone h par).2 := by
      have := pcc_snd h par
      rw [hx] at this
      exact this
    have hev1 : Evolves h h1 := by
      rw [hh1]
      exact evolves_doneF_snd h (par+1) par
    cases o with
    | none => exact hev1
    | some p => exact evolves_trans hev1 (evolves_erase_child h1 p ch)

lemma evolves_ccCancel (recur : Heap → Nat → GoErr → Heap)
    {h : Heap} {i : Nat} {c : CState} (rm : Bool) (e : GoErr)
    (hrec : ∀ hh ch e', Evolves hh (recur hh ch e'))
    (hc : cstateAt h i = some c) :
    Evolves h (ccCancel recur h i c rm e) := by
  by_cases hg : c.err.isSome
  · unfold ccCancel
    simp only [hg, if_true]
    exact evolves_refl h
  · have hgf : c.err.isSome = false := by simpa using hg
    have hce : c.err = none := Option.not_isSome_iff_eq_none.mp hg
    have hlive : errAt h i = none := by
      unfold errAt
      rw [hc]
      simpa using hce
    have hfold : ∀ hh, Evolves h hh →
        Evolves h (c.children.foldl (fun hh2 ch => recur hh2 ch e) hh) := by
      intro hh hP
      refine foldl_inv _ _ _ ?_ hh hP
      intro hh2 a ha hP2
      exact evolves_trans hP2 (hrec hh2 a e)
    unfold ccCancel
    simp only [hgf, Bool.false_eq_true, if_false]
    cases hd : c.done with
    | none =>
      have ev2 : Evolves h (modifyCS (modifyCS h i (fun c0 => { c0 with err := some e })) i
          (fun c0 => { c0 with done := some closedChanId })) := by
        refine evolves_trans (evolves_err_set hlive) (evolves_done_set ?_)
        rw [doneAt_modifyCS_pres (fun c0 => { c0 with err := some e }) (fun c0 => rfl) i]
        unfold doneAt
        rw [hc]
        simpa using hd
      have ev4 := evolves_trans (hfold _ ev2) (evolves_clear_children _ i)
      cases rm with
      | true => exact evolves_trans ev4 (evolves_removeChild _ c.parent i)
      | false => exact ev4
    | some d =>
      have ev2 : Evolves h
          { modifyCS h i (fun c0 => { c0 with err := some e }) with
            chans := (modifyCS h i (fun c0 => { c0 with err := some e })).chans.set d true } :=
        evolves_trans (evolves_err_set hlive) (evolves_close_chan _ d)
      have ev4 := evolves_trans (hfold _ ev2) (evolves_clear_children _ i)
      cases rm with
      | true => exact evolves_trans ev4 (evolves_removeChild _ c.parent i)
      | false => exact ev4

lemma cancelAny_evolves : ∀ (fuel : Nat) (h : Heap) (i : Nat) (rm : Bool) (e : GoErr),
    Evolves h (cancelAny fuel h i rm e) := by
  intro fuel
  induction fuel with
  | zero => intro h i rm e; exact evolves_refl h
  | succ f IH =>
    intro h i rm e
    unfold cancelAny
    cases hn : h.node i with
    | none => exact evolves_refl h
    | some n =>
      cases n with
      | empty => exact evolves_refl h
      | value p k v => exact evolves_refl h
      | cancel c =>
        exact evolves_ccCancel _ rm e (fun hh ch e' => IH hh ch false e')
          (by unfold cstateAt; rw [hn])
      | timer c a dl =>
        have ev1 : Evolves h
            (ccCancel (fun hh ch e' => cancelAny f hh ch false e') h i c false e) :=
          evolves_ccCancel _ false e (fun hh ch e' => IH hh ch false e')
            (by unfold cstateAt; rw [hn])
        cases rm with
        | true =>
          exact evolves_trans
            (evolves_trans ev1 (evolves_removeChild _ c.parent i))
            (evolves_stopTimer _ i)
        | false => exact evolves_trans ev1 (evolves_stopTimer _ i)

/- The first cancellation records its cause at the node. -/

lemma ccCancel_err_self (recur : Heap → Nat → GoErr → Heap)
    {h : Heap} {i : Nat} {c : CState} (rm : Bool) (e : GoErr)
    (hrec : ∀ hh ch e', Evolves hh (recur hh ch e'))
    (hc : cstateAt h i = some c) (hce : c.err = none) :
    errAt (ccCancel recur h i c rm e) i = some e := by
  have hgf : c.err.isSome = false := by rw [hce]; rfl
  unfold ccCancel
  simp only [hgf, Bool.false_eq_true, if_false]
  have h1err : errAt (modifyCS h i (fun c0 => { c0 with err := some e })) i = some e := by
    unfold errAt
    rw [cstateAt_modifyCS_self _ hc]
    rfl
  have step : ∀ hh2 (a : Nat), a ∈ c.children → errAt hh2 i = some e →
      errAt (recur hh2 a e) i = some e :=
    fun hh2 a _ hP => (hrec hh2 a e).2.2.1 i e hP
  cases hd : c.done with
  | none =>
    have h2err : errAt (modifyCS (modifyCS h i (fun c0 => { c0 with err := some e })) i
        (fun c0 => { c0 with done := some closedChanId })) i = some e := by
      rw [errAt_modifyCS_pres (fun c0 => { c0 with done := some closedChanId })
        (fun c0 => rfl) i]
      exact h1err
    have h3err := foldl_inv (fun hh => errAt hh i = some e)
      (fun hh2 ch => recur hh2 ch e) c.children (fun hh2 a ha hP => step hh2 a ha hP) _ h2err
    have h4err : errAt (modifyCS (c.children.foldl (fun hh2 ch => recur hh2 ch e)
        (modifyCS (modifyCS h i (fun c0 => { c0 with err := some e })) i
          (fun c0 => { c0 with done := some closedChanId }))) i
        (fun c0 => { c0 with children := ([] : List Nat) })) i = some e := by
      rw [errAt_modifyCS_pres (fun c0 => { c0 with children := ([] : List Nat) })
        (fun c0 => rfl) i]
      exact h3err
    cases rm with
    | true => exact (evolves_removeChild _ c.parent i).2.2.1 i e h4err
    | false => exact h4err
  | some d =>
    have h2err : errAt { modifyCS h i (fun c0 => { c0 with err := some e }) with
        chans := (modifyCS h i (fun c0 => { c0 with err := some e })).chans.set d true } i
        = some e := h1err
    have h3err := foldl_inv (fun hh => errAt hh i = some e)
      (fun hh2 ch => recur hh2 ch e) c.children (fun hh2 a ha hP => step hh2 a ha hP) _ h2err
    have h4err : errAt (modifyCS (c.children.foldl (fun hh2 ch => recur hh2 ch e)
        { modifyCS h i (fun c0 => { c0 with err := some e }) with
          chans := (modifyCS h i (fun c0 => { c0 with err := some e })).chans.set d true }) i
        (fun c0 => { c0 with children := ([] : List Nat) })) i = some e := by
      rw [errAt_modifyCS_pres (fun c0 => { c0 with children := ([] : List Nat) })
        (fun c0 => rfl) i]
      exact h3err
    cases rm with
    | true => exact (evolves_removeChild _ c.parent i).2.2.1 i e h4err
    | false => exact h4err

lemma cancelAny_err_self {h : Heap} {i : Nat} {c : CState} (fuel : Nat) (rm : Bool)
    (e : GoErr) (hc : cstateAt h i = some c) (hce : c.err = none) :
    errAt (cancelAny (fuel+1) h i rm e) i = some e := by
  unfold cancelAny
  unfold cstateAt at hc
  cases hn : h.node i with
  | none => rw [hn] at hc; exact Option.noConfusion hc
  | some n =>
    cases n with
    | empty => rw [hn] at hc; exact Option.noConfusion hc
    | value p k v => rw [hn] at hc; exact Option.noConfusion hc
    | cancel c0 =>
      rw [hn] at hc
      simp only [Option.some.injEq] at hc
      subst hc
      exact ccCancel_err_self _ rm e (fun hh ch e' => cancelAny_evolves fuel hh ch false e')
        (by unfold cstateAt; rw [hn]) hce
    | timer c0 a dl =>
      rw [hn] at hc
      simp only [Option.some.injEq] at hc
      subst hc
      have hcc : errAt (ccCancel (fun hh ch e' => cancelAny fuel hh ch false e')
          h i c0 false e) i = some e :=
        ccCancel_err_self _ false e (fun hh ch e' => cancelAny_evolves fuel hh ch false e')
          (by unfold cstateAt; rw [hn]) hce
      cases rm with
      | true =>
        exact (evolves_stopTimer _ i).2.2.1 i e
          ((evolves_removeChild _ c0.parent i).2.2.1 i e hcc)
      | false => exact (evolves_stopTimer _ i).2.2.1 i e hcc

/- A second cancellation is a no-op on the node's recorded error, done
channel and child set. -/

lemma pcc_eq {h : Heap} (par : Nat) (hw : WfParents h) (hnck : NoCancelKey h) :
    parentCancelCtx h par =
      match nearestCC h par with
      | none => (none, h)
      | some a =>
        match doneAt h a with
        | some d => if d = closedChanId then (none, h) else (some a, h)
        | none =>
            if h.chans.length = closedChanId then (none, doneAlloc h a)
            else (some a, doneAlloc h a) := by
  unfold parentCancelCtx ctxDone nearestCC
  rw [doneF_nearest h (par+1) par]
  cases hnr : nearestF (par+1) h par with
  | none => simp
  | some a =>
    obtain ⟨cc, hcs⟩ := nearestF_cstate (par+1) par a hnr
    cases hda : doneAt h a with
    | some d =>
      by_cases hd : d = closedChanId
      · simp [hda, hd]
      · have hval : ctxValue h par .cancelKey = .vctx a := by
          unfold ctxValue
          rw [valueF_cancelKey hnck (par+1) par, hnr]
          rfl
        have hcd : cc.done = some d := by
          unfold doneAt at hda
          rw [hcs] at hda
          simpa using hda
        simp [hda, hd, hval, hcs, hcd]
    | none =>
      have hev : Evolves h (doneAlloc h a) := evolves_doneAlloc hda
      have hnck1 : NoCancelKey (doneAlloc h a) := noCancelKey_of_skel hev.2.1 hnck
      have hval : ctxValue (doneAlloc h a) par .cancelKey = .vctx a := by
        unfold ctxValue
        rw [valueF_cancelKey hnck1 (par+1) par, nearestF_congr hev.2.1 (par+1) par, hnr]
        rfl
      have hcs1 : cstateAt (doneAlloc h a) a =
          some { cc with done := some h.chans.length } := by
        unfold doneAlloc
        exact cstateAt_modifyCS_self _ hcs
      by_cases hd : h.chans.length = closedChanId
      · simp [hda, hd]
      · simp [hda, hd, hval, hcs1]

lemma pcc_fst_char {h : Heap} {par p : Nat} (hw : WfParents h) (hnck : NoCancelKey h)
    (hp : (parentCancelCtx h par).1 = some p) :
    nearestCC h par = some p ∧ p ≤ par := by
  rw [pcc_eq par hw hnck] at hp
  cases hnr : nearestCC h par with
  | none => simp [hnr] at hp
  | some a =>
    simp only [hnr] at hp
    have hle : a ≤ par := nearestF_le hw (par+1) par a hnr
    cases hda : doneAt h a with
    | some d =>
      simp only [hda] at hp
      by_cases hd : d = closedChanId
      · simp [hd] at hp
      · rw [if_neg hd] at hp
        simp at hp
        subst hp
        exact ⟨rfl, hle⟩
    | none =>
      simp only [hda] at hp
      by_cases hd : h.chans.length = closedChanId
      · simp [hd] at hp
      · rw [if_neg hd] at hp
        simp at hp
        subst hp
        exact ⟨rfl, hle⟩

lemma removeChild_frame {h : Heap} (par ch : Nat) (hw : WfParents h)
    (hnck : NoCancelKey h) (m : Nat) (hm : par < m) :
    (removeChild h par ch).node m = h.node m := by
  unfold removeChild
  cases hx : parentCancelCtx h par with
  | mk o h1 =>
    have hh1 : h1 = (ctxDone h par).2 := by
      have := pcc_snd h par
      rw [hx] at this
      exact this
    have hframe1 : h1.node m = h.node m := by
      rw [hh1]
      unfold ctxDone
      rw [doneF_nearest h (par+1) par]
      cases hnr : nearestF (par+1) h par with
      | none => rfl
      | some a =>
        have ha : a ≤ par := nearestF_le hw (par+1) par a hnr
        cases hda : doneAt h a with
        | some d => simp only [hda]
        | none =>
          simp only [hda]
          unfold doneAlloc
          rw [node_modifyCS_ne _ (by omega)]
          rfl
    cases o with
    | none => exact hframe1
    | some p =>
      have hple : p ≤ par := by
        have := pcc_fst_char hw hnck (by rw [hx])
        exact this.2
      rw [node_modifyCS_ne _ (by omega)]
      exact hframe1

lemma node_noop_fields {h : Heap} {i : Nat} {c : CState} (hc : cstateAt h i = some c) :
    errAt h i = c.err ∧ doneAt h i = c.done ∧ childrenAt h i = c.children := by
  unfold errAt doneAt childrenAt
  rw [hc]
  exact ⟨rfl, rfl, rfl⟩

lemma cancelAny_noop {h : Heap} {i : Nat} {c : CState} (fuel : Nat) (rm : Bool)
    (e : GoErr) (hw : WfParents h) (hnck : NoCancelKey h)
    (hc : cstateAt h i = some c) (hce : c.err.isSome) :
    errAt (cancelAny (fuel+1) h i rm e) i = c.err ∧
    doneAt (cancelAny (fuel+1) h i rm e) i = c.done ∧
    childrenAt (cancelAny (fuel+1) h i rm e) i = c.children := by
  have hgeq : ∀ (recur : Heap → Nat → GoErr → Heap) (rm' : Bool),
      ccCancel recur h i c rm' e = h := by
    intro recur rm'
    unfold ccCancel
    simp [hce]
  unfold cstateAt at hc
  cases hn : h.node i with
  | none => rw [hn] at hc; exact Option.noConfusion hc
  | some n =>
    cases n with
    | empty => rw [hn] at hc; exact Option.noConfusion hc
    | value p k v => rw [hn] at hc; exact Option.noConfusion hc
    | cancel c0 =>
      rw [hn] at hc
      simp only [Option.some.injEq] at hc
      subst hc
      have hdisp : cancelAny (fuel+1) h i rm e =
          ccCancel (fun hh ch e' => cancelAny fuel hh ch false e') h i c0 rm e := by
        rw [cancelAny.eq_def]
        simp [hn]
      rw [hdisp, hgeq _ rm]
      exact node_noop_fields (by unfold cstateAt; rw [hn])
    | timer c0 a dl =>
      rw [hn] at hc
      simp only [Option.some.injEq] at hc
      subst hc
      have hpar : c0.parent < i := hw i c0.parent (by unfold parentAt; rw [hn])
      cases rm with
      | true =>
        have hdisp : cancelAny (fuel+1) h i true e =
            stopTimer (removeChild (ccCancel (fun hh ch e' => cancelAny fuel hh ch false e')
              h i c0 false e) c0.parent i) i := by
          rw [cancelAny.eq_def]
          simp [hn]
        rw [hdisp, hgeq _ false]
        have hrm : (removeChild h c0.parent i).node i = h.node i :=
          removeChild_frame c0.parent i hw hnck i hpar
        have hlt : i < (removeChild h c0.parent i).nodes.length :=
          node_lt_length (hrm.trans hn)
        have hst : (stopTimer (removeChild h c0.parent i) i).node i =
            some (.timer c0 false dl) := by
          unfold stopTimer
          rw [hrm, hn]
          exact node_setNode_self _ hlt
        unfold errAt doneAt childrenAt cstateAt
        rw [hst]
        exact ⟨rfl, rfl, rfl⟩
      | false =>
        have hdisp : cancelAny (fuel+1) h i false e =
            stopTimer (ccCancel (fun hh ch e' => cancelAny fuel hh ch false e')
              h i c0 false e) i := by
          rw [cancelAny.eq_def]
          simp [hn]
        rw [hdisp, hgeq _ false]
        have hst : (stopTimer h i).node i = some (.timer c0 false dl) := by
          unfold stopTimer
          rw [hn]
          exact node_setNode_self _ (node_lt_length hn)
        unfold errAt doneAt childrenAt cstateAt
        rw [hst]
        exact ⟨rfl, rfl, rfl⟩

/- Cancellation stops and releases a timer node's timer. -/

lemma cancelAny_timer_stopped {h : Heap} {i : Nat} {c : CState} {a : Bool} {dl : Int}
    (fuel : Nat) (rm : Bool) (e : GoErr) (hn : h.node i = some (.timer c a dl)) :
    timerAt (cancelAny (fuel+1) h i rm e) i = false := by
  unfold cancelAny
  rw [hn]
  have hstop : ∀ hh : Heap, Evolves h hh → timerAt (stopTimer hh i) i = false := by
    intro hh hev
    have hsk : skelAt hh i = skelAt h i := hev.2.1 i
    unfold skelAt at hsk
    rw [hn] at hsk
    cases hhn : hh.node i with
    | none => rw [hhn] at hsk; exact Option.noConfusion hsk
    | some m =>
      rw [hhn] at hsk
      simp only [Option.map_some', Option.some.injEq] at hsk
      obtain ⟨c2, a2, rfl, -⟩ := skel_timer_inv hsk
      unfold stopTimer
      rw [hhn]
      unfold timerAt
      rw [node_setNode_self _ (node_lt_length hhn)]
  have hev1 : Evolves h (ccCancel (fun hh ch e' => cancelAny fuel hh ch false e') h i c false e) :=
    evolves_ccCancel _ false e (fun hh ch e' => cancelAny_evolves fuel hh ch false e')
      (by unfold cstateAt; rw [hn])
  cases rm with
  | true =>
    exact hstop _ (evolves_trans hev1 (evolves_removeChild _ c.parent i))
  | false => exact hstop _ hev1

/- Tracked-subtree (reach) lemmas. -/

lemma childrenAt_congr_node {h h' : Heap} {i : Nat} (hn : h'.node i = h.node i) :
    childrenAt h' i = childrenAt h i := by
  unfold childrenAt cstateAt
  rw [hn]

lemma flatMap_congr_mem {l : List Nat} {f g : Nat → List Nat}
    (hfg : ∀ a ∈ l, f a = g a) : l.flatMap f = l.flatMap g := by
  induction l with
  | nil => rfl
  | cons x t IH =>
    simp only [List.flatMap_cons]
    rw [hfg x (List.mem_cons_self x t), IH (fun a ha => hfg a (List.mem_cons_of_mem x ha))]

lemma all_congr_mem {l : List Nat} {f g : Nat → Bool}
    (hfg : ∀ a ∈ l, f a = g a) : l.all f = l.all g := by
  induction l with
  | nil => rfl
  | cons x t IH =>
    simp only [List.all_cons]
    rw [hfg x (List.mem_cons_self x t), IH (fun a ha => hfg a (List.mem_cons_of_mem x ha))]

lemma reachF_succ (fuel : Nat) (h : Heap) (i : Nat) :
    reachF (fuel+1) h i = i :: (childrenAt h i).flatMap (fun ch => reachF fuel h ch) := rfl

lemma mem_reach_self (fuel : Nat) (h : Heap) (i : Nat) : i ∈ reachF (fuel+1) h i := by
  rw [reachF_succ]
  exact List.mem_cons_self i _

lemma mem_reach_of_child {fuel : Nat} {h : Heap} {i ch x : Nat} (hch : ch ∈ childrenAt h i)
    (hx : x ∈ reachF fuel h ch) : x ∈ reachF (fuel+1) h i := by
  rw [reachF_succ]
  exact List.mem_cons_of_mem _ (List.mem_flatMap.mpr ⟨ch, hch, hx⟩)

lemma reach_subset_of_children {h h' : Heap}
    (hsub : ∀ j, childrenAt h' j ⊆ childrenAt h j) :
    ∀ fuel i, reachF fuel h' i ⊆ reachF fuel h i := by
  intro fuel
  induction fuel with
  | zero => intro i x hx; exact absurd hx (by simp [reachF])
  | succ f IH =>
    intro i x hx
    rw [reachF_succ] at hx ⊢
    rcases List.mem_cons.mp hx with rfl | hx2
    · exact List.mem_cons_self x _
    · obtain ⟨ch, hch, hxr⟩ := List.mem_flatMap.mp hx2
      exact List.mem_cons_of_mem _ (List.mem_flatMap.mpr ⟨ch, hsub i hch, IH ch hxr⟩)

lemma reach_agree {h h' : Heap} :
    ∀ fuel i, (∀ m ∈ reachF fuel h i, h'.node m = h.node m) →
      reachF fuel h' i = reachF fuel h i := by
  intro fuel
  induction fuel with
  | zero => intro i hag; rfl
  | succ f IH =>
    intro i hag
    rw [reachF_succ, reachF_succ]
    have hni : h'.node i = h.node i := hag i (mem_reach_self f h i)
    have hci : childrenAt h' i = childrenAt h i := childrenAt_congr_node hni
    rw [hci]
    congr 1
    refine flatMap_congr_mem ?_
    intro ch hch
    exact IH ch (fun m hm => hag m (mem_reach_of_child hch hm))

lemma goodB_succ_some {h : Heap} {fuel i : Nat} {c : CState} (hcs : cstateAt h i = some c) :
    goodB (fuel+1) h i = (c.err.isNone && c.children.all (fun ch => goodB fuel h ch)) := by
  rw [goodB.eq_def]
  simp [hcs]

lemma goodB_succ_none {h : Heap} {fuel i : Nat} (hcs : cstateAt h i = none) :
    goodB (fuel+1) h i = false := by
  rw [goodB.eq_def]
  simp [hcs]

lemma goodB_agree {h h' : Heap} :
    ∀ fuel i, (∀ m ∈ reachF fuel h i, h'.node m = h.node m) →
      goodB fuel h' i = goodB fuel h i := by
  intro fuel
  induction fuel with
  | zero => intro i hag; rfl
  | succ f IH =>
    intro i hag
    have hni : h'.node i = h.node i := hag i (mem_reach_self f h i)
    have hcsi : cstateAt h' i = cstateAt h i := by unfold cstateAt; rw [hni]
    cases hcs : cstateAt h i with
    | none =>
      rw [goodB_succ_none (hcsi.trans hcs), goodB_succ_none hcs]
    | some c =>
      rw [goodB_succ_some (hcsi.trans hcs), goodB_succ_some hcs]
      congr 1
      refine all_congr_mem ?_
      intro ch hch
      have hch2 : ch ∈ childrenAt h i := by
        unfold childrenAt
        rw [hcs]
        simpa using hch
      exact IH ch (fun m hm => hag m (mem_reach_of_child hch2 hm))

lemma goodB_props {h : Heap} {fuel i : Nat} (hg : goodB (fuel+1) h i = true) :
    ∃ c, cstateAt h i = some c ∧ c.err = none ∧
      ∀ ch ∈ c.children, goodB fuel h ch = true := by
  cases hcs : cstateAt h i with
  | none =>
    rw [goodB_succ_none hcs] at hg
    exact absurd hg (by simp)
  | some c =>
    rw [goodB_succ_some hcs] at hg
    rw [Bool.and_eq_true, List.all_eq_true] at hg
    exact ⟨c, rfl, Option.isNone_iff_eq_none.mp hg.1, fun ch hch => hg.2 ch hch⟩

/- Dispatch equations of `cancelAny` for each node kind. -/

lemma cancelAny_eq_id {fuel : Nat} {h : Heap} {i : Nat} {rm : Bool} {e : GoErr}
    (hn : h.node i = none ∨ h.node i = some .empty ∨ ∃ p k v, h.node i = some (.value p k v)) :
    cancelAny (fuel+1) h i rm e = h := by
  rw [cancelAny.eq_def]
  rcases hn with hn | hn | ⟨p, k, v, hn⟩ <;> simp [hn]

lemma cancelAny_eq_cancel {fuel : Nat} {h : Heap} {i : Nat} {c : CState} {rm : Bool}
    {e : GoErr} (hn : h.node i = some (.cancel c)) :
    cancelAny (fuel+1) h i rm e =
      ccCancel (fun hh ch e' => cancelAny fuel hh ch false e') h i c rm e := by
  rw [cancelAny.eq_def]
  simp [hn]

lemma cancelAny_eq_timer_true {fuel : Nat} {h : Heap} {i : Nat} {c : CState} {a : Bool}
    {dl : Int} {e : GoErr} (hn : h.node i = some (.timer c a dl)) :
    cancelAny (fuel+1) h i true e =
      stopTimer (removeChild
        (ccCancel (fun hh ch e' => cancelAny fuel hh ch false e') h i c false e)
        c.parent i) i := by
  rw [cancelAny.eq_def]
  simp [hn]

lemma cancelAny_eq_timer_false {fuel : Nat} {h : Heap} {i : Nat} {c : CState} {a : Bool}
    {dl : Int} {e : GoErr} (hn : h.node i = some (.timer c a dl)) :
    cancelAny (fuel+1) h i false e =
      stopTimer (ccCancel (fun hh ch e' => cancelAny fuel hh ch false e') h i c false e) i := by
  rw [cancelAny.eq_def]
  simp [hn]

lemma stopTimer_node_ne {h : Heap} {i j : Nat} (hne : i ≠ j) :
    (stopTimer h i).node j = h.node j := by
  unfold stopTimer
  cases hn : h.node i with
  | none => rfl
  | some n => cases n <;> first | rfl | exact node_setNode_ne _ hne

/- Frame: a cascade with `removeFromParent = false` modifies no node
outside the tracked subtree. -/

lemma cancelAny_frame : ∀ (fuel : Nat) (h : Heap) (i : Nat) (e : GoErr) (j : Nat),
    j ∉ reachF fuel h i → (cancelAny fuel h i false e).node j = h.node j := by
  intro fuel
  induction fuel with
  | zero => intro h i e j hj; rfl
  | succ f IH =>
    intro h i e j hj
    have hji : j ≠ i := by
      intro he
      subst he
      exact hj (mem_reach_self f h j)
    have hjf : ∀ ch ∈ childrenAt h i, j ∉ reachF f h ch := by
      intro ch hch hmem
      exact hj (mem_reach_of_child hch hmem)
    cases hn : h.node i with
    | none => rw [cancelAny_eq_id (Or.inl hn)]
    | some n =>
      cases n with
      | empty => rw [cancelAny_eq_id (Or.inr (Or.inl hn))]
      | value p k v => rw [cancelAny_eq_id (Or.inr (Or.inr ⟨p, k, v, hn⟩))]
      | cancel c =>
        rw [cancelAny_eq_cancel hn]
        have hcc : c.children = childrenAt h i := by
          simp [childrenAt, cstateAt, hn]
        by_cases hg : c.err.isSome
        · unfold ccCancel
          simp [hg]
        · have hgf : c.err.isSome = false := by simpa using hg
          unfold ccCancel
          simp only [hgf, Bool.false_eq_true, if_false]
          have hstep : ∀ hh2 (a0 : Nat), a0 ∈ c.children →
              (hh2.node j = h.node j ∧ Evolves h hh2) →
              ((cancelAny f hh2 a0 false e).node j = h.node j ∧
                Evolves h (cancelAny f hh2 a0 false e)) := by
            intro hh2 a0 ha0 hP
            constructor
            · have hsub : reachF f hh2 a0 ⊆ reachF f h a0 :=
                reach_subset_of_children hP.2.2.2.2.1 f a0
              have hnot : j ∉ reachF f hh2 a0 := by
                intro hmem
                exact hjf a0 (hcc ▸ ha0) (hsub hmem)
              rw [IH hh2 a0 e j hnot]
              exact hP.1
            · exact evolves_trans hP.2 (cancelAny_evolves f hh2 a0 false e)
          cases hd : c.done with
          | none =>
            have hbase : (modifyCS (modifyCS h i (fun c0 => { c0 with err := some e })) i
                (fun c0 => { c0 with done := some closedChanId })).node j = h.node j := by
              rw [node_modifyCS_ne _ (fun he => hji he.symm),
                node_modifyCS_ne _ (fun he => hji he.symm)]
            have hev : Evolves h (modifyCS (modifyCS h i
                (fun c0 => { c0 with err := some e })) i
                (fun c0 => { c0 with done := some closedChanId })) := by
              refine evolves_trans (evolves_err_set ?_) (evolves_done_set ?_)
              · unfold errAt cstateAt
                rw [hn]
                simpa using Option.not_isSome_iff_eq_none.mp hg
              · rw [doneAt_modifyCS_pres (fun c0 => { c0 with err := some e })
                  (fun c0 => rfl) i]
                unfold doneAt cstateAt
                rw [hn]
                simpa using hd
            have hfold := foldl_inv
              (fun hh => hh.node j = h.node j ∧ Evolves h hh)
              (fun hh2 ch => cancelAny f hh2 ch false e) c.children hstep _ ⟨hbase, hev⟩
            rw [node_modifyCS_ne _ (fun he => hji he.symm)]
            exact hfold.1
          | some d =>
            have hbase : ({ modifyCS h i (fun c0 => { c0 with err := some e }) with
                chans := (modifyCS h i
                  (fun c0 => { c0 with err := some e })).chans.set d true } : Heap).node j
                = h.node j := by
              have : ({ modifyCS h i (fun c0 => { c0 with err := some e }) with
                  chans := (modifyCS h i
                    (fun c0 => { c0 with err := some e })).chans.set d true } : Heap).node j
                  = (modifyCS h i (fun c0 => { c0 with err := some e })).node j := rfl
              rw [this, node_modifyCS_ne _ (fun he => hji he.symm)]
            have hev : Evolves h { modifyCS h i (fun c0 => { c0 with err := some e }) with
                chans := (modifyCS h i
                  (fun c0 => { c0 with err := some e })).chans.set d true } := by
              refine evolves_trans (evolves_err_set ?_) (evolves_close_chan _ d)
              unfold errAt cstateAt
              rw [hn]
              simpa using Option.not_isSome_iff_eq_none.mp hg
            have hfold := foldl_inv
              (fun hh => hh.node j = h.node j ∧ Evolves h hh)
              (fun hh2 ch => cancelAny f hh2 ch false e) c.children hstep _ ⟨hbase, hev⟩
            rw [node_modifyCS_ne _ (fun he => hji he.symm)]
            exact hfold.1
      | timer c a dl =>
        rw [cancelAny_eq_timer_false hn]
        rw [stopTimer_node_ne (fun he => hji he.symm)]
        have hcc : c.children = childrenAt h i := by
          simp [childrenAt, cstateAt, hn]
        by_cases hg : c.err.isSome
        · unfold ccCancel
          simp [hg]
        · have hgf : c.err.isSome = false := by simpa using hg
          unfold ccCancel
          simp only [hgf, Bool.false_eq_true, if_false]
          have hstep : ∀ hh2 (a0 : Nat), a0 ∈ c.children →
              (hh2.node j = h.node j ∧ Evolves h hh2) →
              ((cancelAny f hh2 a0 false e).node j = h.node j ∧
                Evolves h (cancelAny f hh2 a0 false e)) := by
            intro hh2 a0 ha0 hP
            constructor
            · have hsub : reachF f hh2 a0 ⊆ reachF f h a0 :=
                reach_subset_of_children hP.2.2.2.2.1 f a0
              have hnot : j ∉ reachF f hh2 a0 := by
                intro hmem
                exact hjf a0 (hcc ▸ ha0) (hsub hmem)
              rw [IH hh2 a0 e j hnot]
              exact hP.1
            · exact evolves_trans hP.2 (cancelAny_evolves f hh2 a0 false e)
          cases hd : c.done with
          | none =>
            have hbase : (modifyCS (modifyCS h i (fun c0 => { c0 with err := some e })) i
                (fun c0 => { c0 with done := some closedChanId })).node j = h.node j := by
              rw [node_modifyCS_ne _ (fun he => hji he.symm),
                node_modifyCS_ne _ (fun he => hji he.symm)]
            have hev : Evolves h (modifyCS (modifyCS h i
                (fun c0 => { c0 with err := some e })) i
                (fun c0 => { c0 with done := some closedChanId })) := by
              refine evolves_trans (evolves_err_set ?_) (evolves_done_set ?_)
              · unfold errAt cstateAt
                rw [hn]
                simpa using Option.not_isSome_iff_eq_none.mp hg
              · rw [doneAt_modifyCS_pres (fun c0 => { c0 with err := some e })
                  (fun c0 => rfl) i]
                unfold doneAt cstateAt
                rw [hn]
                simpa using hd
            have hfold := foldl_inv
              (fun hh => hh.node j = h.node j ∧ Evolves h hh)
              (fun hh2 ch => cancelAny f hh2 ch false e) c.children hstep _ ⟨hbase, hev⟩
            rw [node_modifyCS_ne _ (fun he => hji he.symm)]
            exact hfold.1
          | some d =>
            have hbase : ({ modifyCS h i (fun c0 => { c0 with err := some e }) with
                chans := (modifyCS h i
                  (fun c0 => { c0 with err := some e })).chans.set d true } : Heap).node j
                = h.node j := by
              have : ({ modifyCS h i (fun c0 => { c0 with err := some e }) with
                  chans := (modifyCS h i
                    (fun c0 => { c0 with err := some e })).chans.set d true } : Heap).node j
                  = (modifyCS h i (fun c0 => { c0 with err := some e })).node j := rfl
              rw [this, node_modifyCS_ne _ (fun he => hji he.symm)]
            have hev : Evolves h { modifyCS h i (fun c0 => { c0 with err := some e }) with
                chans := (modifyCS h i
                  (fun c0 => { c0 with err := some e })).chans.set d true } := by
              refine evolves_trans (evolves_err_set ?_) (evolves_close_chan _ d)
              unfold errAt cstateAt
              rw [hn]
              simpa using Option.not_isSome_iff_eq_none.mp hg
            have hfold := foldl_inv
              (fun hh => hh.node j = h.node j ∧ Evolves h hh)
              (fun hh2 ch => cancelAny f hh2 ch false e) c.children hstep _ ⟨hbase, hev⟩
            rw [node_modifyCS_ne _ (fun he => hji he.symm)]
            exact hfold.1

/- The cascade: canceling a well-formed live subtree records the same
cause at every tracked descendant. -/

lemma cascade_fold_errs (f : Nat) (e : GoErr) {h : Heap} :
    ∀ (l : List Nat) (h2 : Heap),
    (∀ (h' : Heap) (i' : Nat), goodB f h' i' = true → (reachF f h' i').Nodup →
      ∀ j ∈ reachF f h' i', errAt (cancelAny f h' i' false e) j = some e) →
    (∀ ch ∈ l, goodB f h ch = true) →
    (∀ ch ∈ l, (reachF f h ch).Nodup) →
    l.Pairwise (fun a b => (reachF f h a).Disjoint (reachF f h b)) →
    (∀ ch ∈ l, ∀ m ∈ reachF f h ch, h2.node m = h.node m) →
    ∀ ch ∈ l, ∀ j ∈ reachF f h ch,
      errAt (l.foldl (fun hh ch2 => cancelAny f hh ch2 false e) h2) j = some e := by
  intro l
  induction l with
  | nil => intro h2 hIH hgood hnods hpair hagree ch hch; exact absurd hch (by simp)
  | cons x t IHl =>
    intro h2 hIH hgood hnods hpair hagree ch hch j hj
    obtain ⟨hx_disj, hpt⟩ := List.pairwise_cons.mp hpair
    have hagx : ∀ m ∈ reachF f h x, h2.node m = h.node m :=
      hagree x (List.mem_cons_self x t)
    have hreq : reachF f h2 x = reachF f h x := reach_agree f x hagx
    have hgx : goodB f h2 x = true := by
      rw [goodB_agree f x hagx]
      exact hgood x (List.mem_cons_self x t)
    have hndx : (reachF f h2 x).Nodup := by
      rw [hreq]
      exact hnods x (List.mem_cons_self x t)
    have hstep_err : ∀ m ∈ reachF f h x,
        errAt (cancelAny f h2 x false e) m = some e := by
      intro m hm
      exact hIH h2 x hgx hndx m (hreq ▸ hm)
    have hstep_frame : ∀ ch2 ∈ t, ∀ m ∈ reachF f h ch2,
        (cancelAny f h2 x false e).node m = h.node m := by
      intro ch2 hch2 m hm
      have hmnot : m ∉ reachF f h2 x := by
        rw [hreq]
        intro hmem
        exact hx_disj ch2 hch2 hmem hm
      rw [cancelAny_frame f h2 x e m hmnot]
      exact hagree ch2 (List.mem_cons_of_mem x hch2) m hm
    simp only [List.foldl_cons]
    rcases List.mem_cons.mp hch with rfl | hcht
    · -- the subtree of the first child: errors set, then stable
      refine foldl_inv (fun hh => errAt hh j = some e)
        (fun hh ch2 => cancelAny f hh ch2 false e) t ?_ _ (hstep_err j hj)
      intro hh a ha hP
      exact (cancelAny_evolves f hh a false e).2.2.1 j e hP
    · exact IHl (cancelAny f h2 x false e) hIH
        (fun ch2 hch2 => hgood ch2 (List.mem_cons_of_mem x hch2))
        (fun ch2 hch2 => hnods ch2 (List.mem_cons_of_mem x hch2))
        hpt hstep_frame ch hcht j hj

lemma ccCancel_post_errs (f : Nat) (e : GoErr) {h : Heap} {i : Nat} {c : CState} (rm : Bool)
    (hIH : ∀ (h' : Heap) (i' : Nat), goodB f h' i' = true → (reachF f h' i').Nodup →
      ∀ j ∈ reachF f h' i', errAt (cancelAny f h' i' false e) j = some e)
    (hcc : childrenAt h i = c.children)
    (hgood : ∀ ch ∈ c.children, goodB f h ch = true)
    (hnd : (reachF (f+1) h i).Nodup)
    (h2 : Heap)
    (h2err : errAt h2 i = some e)
    (h2frame : ∀ m, m ≠ i → h2.node m = h.node m) :
    ∀ j ∈ reachF (f+1) h i,
      errAt (if rm then
          removeChild (modifyCS (c.children.foldl
            (fun hh ch => cancelAny f hh ch false e) h2) i
            (fun c0 => { c0 with children := ([] : List Nat) })) c.parent i
        else modifyCS (c.children.foldl
            (fun hh ch => cancelAny f hh ch false e) h2) i
            (fun c0 => { c0 with children := ([] : List Nat) })) j = some e := by
  intro j hj
  rw [reachF_succ, hcc] at hj hnd
  obtain ⟨hnotin, hnd2⟩ := List.nodup_cons.mp hnd
  obtain ⟨hnods, hpair⟩ := List.nodup_flatMap.mp hnd2
  have hagree : ∀ ch ∈ c.children, ∀ m ∈ reachF f h ch, h2.node m = h.node m := by
    intro ch hch m hm
    refine h2frame m ?_
    intro he
    subst he
    exact hnotin (List.mem_flatMap.mpr ⟨ch, hch, hm⟩)
  have herr3 : errAt (c.children.foldl (fun hh ch => cancelAny f hh ch false e) h2) j
      = some e := by
    rcases List.mem_cons.mp hj with rfl | hjf
    · exact foldl_inv (fun hh => errAt hh j = some e)
        (fun hh ch => cancelAny f hh ch false e) c.children
        (fun hh a ha hP => (cancelAny_evolves f hh a false e).2.2.1 j e hP) h2 h2err
    · obtain ⟨ch, hch, hjr⟩ := List.mem_flatMap.mp hjf
      exact cascade_fold_errs f e c.children h2 hIH hgood hnods hpair hagree ch hch j hjr
  have herr4 : errAt (modifyCS (c.children.foldl
      (fun hh ch => cancelAny f hh ch false e) h2) i
      (fun c0 => { c0 with children := ([] : List Nat) })) j = some e := by
    rw [errAt_modifyCS_pres (fun c0 => { c0 with children := ([] : List Nat) })
      (fun c0 => rfl) j]
    exact herr3
  cases rm with
  | true => exact (evolves_removeChild _ c.parent i).2.2.1 j e herr4
  | false => exact herr4

lemma ccCancel_errs (f : Nat) (e : GoErr) {h : Heap} {i : Nat} {c : CState} (rm : Bool)
    (hIH : ∀ (h' : Heap) (i' : Nat), goodB f h' i' = true → (reachF f h' i').Nodup →
      ∀ j ∈ reachF f h' i', errAt (cancelAny f h' i' false e) j = some e)
    (hc : cstateAt h i = some c) (hce : c.err = none)
    (hgood : ∀ ch ∈ c.children, goodB f h ch = true)
    (hnd : (reachF (f+1) h i).Nodup) :
    ∀ j ∈ reachF (f+1) h i,
      errAt (ccCancel (fun hh ch e' => cancelAny f hh ch false e') h i c rm e) j
        = some e := by
  have hgf : c.err.isSome = false := by rw [hce]; rfl
  have hcc : childrenAt h i = c.children := by
    unfold childrenAt
    rw [hc]
    rfl
  have hlive : errAt h i = none := by
    unfold errAt
    rw [hc]
    simpa using hce
  unfold ccCancel
  simp only [hgf, Bool.false_eq_true, if_false]
  cases hd : c.done with
  | none =>
    have h2err : errAt (modifyCS (modifyCS h i (fun c0 => { c0 with err := some e })) i
        (fun c0 => { c0 with done := some closedChanId })) i = some e := by
      rw [errAt_modifyCS_pres (fun c0 => { c0 with done := some closedChanId })
        (fun c0 => rfl) i]
      unfold errAt
      rw [cstateAt_modifyCS_self _ hc]
      rfl
    have h2frame : ∀ m, m ≠ i →
        (modifyCS (modifyCS h i (fun c0 => { c0 with err := some e })) i
          (fun c0 => { c0 with done := some closedChanId })).node m = h.node m := by
      intro m hm
      rw [node_modifyCS_ne _ (fun he => hm he.symm),
        node_modifyCS_ne _ (fun he => hm he.symm)]
    exact ccCancel_post_errs f e rm hIH hcc hgood hnd _ h2err h2frame
  | some d =>
    have h2err : errAt ({ modifyCS h i (fun c0 => { c0 with err := some e }) with
        chans := (modifyCS h i
          (fun c0 => { c0 with err := some e })).chans.set d true } : Heap) i = some e := by
      show errAt (modifyCS h i (fun c0 => { c0 with err := some e })) i = some e
      unfold errAt
      rw [cstateAt_modifyCS_self _ hc]
      rfl
    have h2frame : ∀ m, m ≠ i →
        ({ modifyCS h i (fun c0 => { c0 with err := some e }) with
          chans := (modifyCS h i
            (fun c0 => { c0 with err := some e })).chans.set d true } : Heap).node m
          = h.node m := by
      intro m hm
      show (modifyCS h i (fun c0 => { c0 with err := some e })).node m = h.node m
      rw [node_modifyCS_ne _ (fun he => hm he.symm)]
    exact ccCancel_post_errs f e rm hIH hcc hgood hnd _ h2err h2frame

lemma cancelAny_errs : ∀ (fuel : Nat) (h : Heap) (i : Nat) (rm : Bool) (e : GoErr),
    goodB fuel h i = true → (reachF fuel h i).Nodup →
    ∀ j ∈ reachF fuel h i, errAt (cancelAny fuel h i rm e) j = some e := by
  intro fuel
  induction fuel with
  | zero =>
    intro h i rm e hg
    exact absurd hg (by simp [goodB])
  | succ f IH =>
    intro h i rm e hg hnd j hj
    obtain ⟨c, hc, hce, hgood⟩ := goodB_props hg
    have hIH : ∀ (h' : Heap) (i' : Nat), goodB f h' i' = true → (reachF f h' i').Nodup →
        ∀ j0 ∈ reachF f h' i', errAt (cancelAny f h' i' false e) j0 = some e :=
      fun h' i' a b j0 c0 => IH h' i' false e a b j0 c0
    have hcsn := hc
    unfold cstateAt at hcsn
    cases hn : h.node i with
    | none => rw [hn] at hcsn; exact Option.noConfusion hcsn
    | some n =>
      cases n with
      | empty => rw [hn] at hcsn; exact Option.noConfusion hcsn
      | value p k v => rw [hn] at hcsn; exact Option.noConfusion hcsn
      | cancel c0 =>
        rw [hn] at hcsn
        simp only [Option.some.injEq] at hcsn
        subst hcsn
        rw [cancelAny_eq_cancel hn]
        exact ccCancel_errs f e rm hIH hc hce hgood hnd j hj
      | timer c0 a dl =>
        rw [hn] at hcsn
        simp only [Option.some.injEq] at hcsn
        subst hcsn
        have hbase := ccCancel_errs f e false hIH hc hce hgood hnd j hj
        cases rm with
        | true =>
          rw [cancelAny_eq_timer_true hn]
          exact (evolves_stopTimer _ i).2.2.1 j e
            ((evolves_removeChild _ c0.parent i).2.2.1 j e hbase)
        | false =>
          rw [cancelAny_eq_timer_false hn]
          exact (evolves_stopTimer _ i).2.2.1 j e hbase

/- Cancellation clears the canceled node's tracked-child set. -/

lemma cstate_some_of_skel {h h' : Heap} {i : Nat} {c : CState}
    (hs : skelAt h' i = skelAt h i) (hc : cstateAt h i = some c) :
    ∃ c', cstateAt h' i = some c' := by
  unfold cstateAt at hc ⊢
  cases hn : h.node i with
  | none => rw [hn] at hc; exact Option.noConfusion hc
  | some n =>
    cases n with
    | empty => rw [hn] at hc; exact Option.noConfusion hc
    | value p k v => rw [hn] at hc; exact Option.noConfusion hc
    | cancel c0 =>
      obtain ⟨n', hn', hsk⟩ := node_some_of_skel hs hn
      obtain ⟨c2, rfl, -⟩ := skel_cancel_inv hsk
      rw [hn']
      exact ⟨c2, rfl⟩
    | timer c0 a dl =>
      obtain ⟨n', hn', hsk⟩ := node_some_of_skel hs hn
      obtain ⟨c2, a2, rfl, -⟩ := skel_timer_inv hsk
      rw [hn']
      exact ⟨c2, rfl⟩

lemma childrenAt_stopTimer (h : Heap) (i j : Nat) :
    childrenAt (stopTimer h i) j = childrenAt h j := by
  unfold stopTimer
  cases hn : h.node i with
  | none => rfl
  | some n =>
    cases n with
    | timer c a dl =>
      rcases eq_or_ne i j with rfl | hne
      · unfold childrenAt cstateAt
        rw [node_setNode_self _ (node_lt_length hn), hn]
      · unfold childrenAt cstateAt
        rw [node_setNode_ne _ hne]
    | empty => rfl
    | value p k v => rfl
    | cancel c => rfl

lemma ccCancel_clear_key (recur : Heap → Nat → GoErr → Heap)
    {h : Heap} {i : Nat} {c : CState} (rm : Bool) (e : GoErr)
    (hrec : ∀ hh ch e', Evolves hh (recur hh ch e'))
    (hc : cstateAt h i = some c) (hw : WfParents h) (hnck : NoCancelKey h)
    (hpi : c.parent < i) (h2 : Heap) (hev2 : Evolves h h2) :
    childrenAt (if rm then
        removeChild (modifyCS (c.children.foldl (fun hh ch => recur hh ch e) h2) i
          (fun c0 => { c0 with children := ([] : List Nat) })) c.parent i
      else modifyCS (c.children.foldl (fun hh ch => recur hh ch e) h2) i
          (fun c0 => { c0 with children := ([] : List Nat) })) i = [] := by
  have hev3 : Evolves h (c.children.foldl (fun hh ch => recur hh ch e) h2) := by
    refine foldl_inv (fun hh => Evolves h hh) (fun hh ch => recur hh ch e) c.children
      ?_ h2 hev2
    intro hh a ha hP
    exact evolves_trans hP (hrec hh a e)
  obtain ⟨c3, hc3⟩ := cstate_some_of_skel (hev3.2.1 i) hc
  have h4children : childrenAt (modifyCS (c.children.foldl
      (fun hh ch => recur hh ch e) h2) i
      (fun c0 => { c0 with children := ([] : List Nat) })) i = [] := by
    unfold childrenAt
    rw [cstateAt_modifyCS_self _ hc3]
    rfl
  cases rm with
  | false => exact h4children
  | true =>
    rw [if_pos rfl]
    have hev4 : Evolves h (modifyCS (c.children.foldl
        (fun hh ch => recur hh ch e) h2) i
        (fun c0 => { c0 with children := ([] : List Nat) })) :=
      evolves_trans hev3 (evolves_clear_children _ i)
    have hw4 := wfParents_of_skel hev4.2.1 hw
    have hnck4 := noCancelKey_of_skel hev4.2.1 hnck
    have hfr := removeChild_frame c.parent i hw4 hnck4 i hpi
    rw [childrenAt_congr_node hfr]
    exact h4children

lemma cancelAny_clears_children {h : Heap} {i : Nat} {c : CState} (fuel : Nat) (rm : Bool)
    (e : GoErr) (hw : WfParents h) (hnck : NoCancelKey h)
    (hc : cstateAt h i = some c) (hce : c.err = none) :
    childrenAt (cancelAny (fuel+1) h i rm e) i = [] := by
  have hgf : c.err.isSome = false := by rw [hce]; rfl
  have hpi : c.parent < i := by
    refine hw i c.parent ?_
    unfold parentAt
    unfold cstateAt at hc
    cases hn : h.node i with
    | none => rw [hn] at hc; exact Option.noConfusion hc
    | some n =>
      cases n with
      | empty => rw [hn] at hc; exact Option.noConfusion hc
      | value p k v => rw [hn] at hc; exact Option.noConfusion hc
      | cancel c0 => rw [hn] at hc; simp only [Option.some.injEq] at hc; subst hc; rfl
      | timer c0 a dl => rw [hn] at hc; simp only [Option.some.injEq] at hc; subst hc; rfl
  have hrec : ∀ hh ch e', Evolves hh (cancelAny fuel hh ch false e') :=
    fun hh ch e' => cancelAny_evolves fuel hh ch false e'
  have hlive : errAt h i = none := by
    unfold errAt
    rw [hc]
    simpa using hce
  have hccbody : ∀ rm' : Bool, childrenAt
      (ccCancel (fun hh ch e' => cancelAny fuel hh ch false e') h i c rm' e) i = [] := by
    intro rm'
    unfold ccCancel
    simp only [hgf, Bool.false_eq_true, if_false]
    cases hd : c.done with
    | none =>
      refine ccCancel_clear_key _ rm' e hrec hc hw hnck hpi _ ?_
      refine evolves_trans (evolves_err_set hlive) (evolves_done_set ?_)
      rw [doneAt_modifyCS_pres (fun c0 => { c0 with err := some e }) (fun c0 => rfl) i]
      unfold doneAt
      rw [hc]
      simpa using hd
    | some d =>
      refine ccCancel_clear_key _ rm' e hrec hc hw hnck hpi _ ?_
      exact evolves_trans (evolves_err_set hlive) (evolves_close_chan _ d)
  unfold cstateAt at hc
  cases hn : h.node i with
  | none => rw [hn] at hc; exact Option.noConfusion hc
  | some n =>
    cases n with
    | empty => rw [hn] at hc; exact Option.noConfusion hc
    | value p k v => rw [hn] at hc; exact Option.noConfusion hc
    | cancel c0 =>
      rw [hn] at hc
      simp only [Option.some.injEq] at hc
      subst hc
      rw [cancelAny_eq_cancel hn]
      exact hccbody rm
    | timer c0 a dl =>
      rw [hn] at hc
      simp only [Option.some.injEq] at hc
      subst hc
      have hbase := hccbody false
      cases rm with
      | true =>
        rw [cancelAny_eq_timer_true hn]
        have hevX : Evolves h (ccCancel (fun hh ch e' => cancelAny fuel hh ch false e')
            h i c0 false e) :=
          evolves_ccCancel _ false e hrec (by unfold cstateAt; rw [hn])
        have hwX := wfParents_of_skel hevX.2.1 hw
        have hnckX := noCancelKey_of_skel hevX.2.1 hnck
        rw [childrenAt_stopTimer]
        rw [childrenAt_congr_node (removeChild_frame c0.parent i hwX hnckX i hpi)]
        exact hbase
      | false =>
        rw [cancelAny_eq_timer_false hn]
        rw [childrenAt_stopTimer]
        exact hbase

/-- The `Err` method of a cancelable or deadline node reads its own
error field. -/
lemma ctxErr_cc {h : Heap} {j : Nat} {c : CState} (hc : cstateAt h j = some c) :
    ctxErr h j = errAt h j := by
  unfold ctxErr errF errAt cstateAt
  unfold cstateAt at hc
  cases hn : h.node j with
  | none => rw [hn] at hc; exact Option.noConfusion hc
  | some n =>
    cases n with
    | empty => rw [hn] at hc; exact Option.noConfusion hc
    | value p k v => rw [hn] at hc; exact Option.noConfusion hc
    | cancel c0 => rfl
    | timer c0 a dl => rfl

/- Value lookup as association-list search over the path bindings. -/

lemma valueF_assoc (h : Heap) (u : Nat) :
    ∀ fuel i, valueF fuel h i (.user u) = assocFind (bindingsF fuel h i) (.user u) := by
  intro fuel
  induction fuel with
  | zero => intro i; rfl
  | succ f IH =>
    intro i
    unfold valueF bindingsF
    cases hn : h.node i with
    | none => rfl
    | some n =>
      cases n with
      | value p k v =>
        by_cases hk : (GoKey.user u) = k
        · simp [assocFind, hk]
        · simp only [if_neg hk, assocFind]
          exact IH p
      | cancel c =>
        simp only [if_neg (by simp : (GoKey.user u) ≠ GoKey.cancelKey)]
        exact IH c.parent
      | timer c a dl =>
        simp only [if_neg (by simp : (GoKey.user u) ≠ GoKey.cancelKey)]
        exact IH c.parent
      | empty => rfl

/- Projections of the full heap invariant. -/

lemma heapOK_skel {h : Heap} (hok : heapOKB h = true) : skelOKB h = true := by
  unfold heapOKB at hok
  rw [Bool.and_eq_true, Bool.and_eq_true] at hok
  exact hok.1.1

lemma heapOK_chan0 {h : Heap} (hok : heapOKB h = true) :
    h.chan closedChanId = some true := by
  unfold heapOKB at hok
  rw [Bool.and_eq_true, Bool.and_eq_true] at hok
  exact of_decide_eq_true hok.1.2

lemma heapOK_chanInv {h : Heap} (hok : heapOKB h = true) :
    ∀ j cc, cstateAt h j = some cc →
      (cc.err = none → ∀ dd, cc.done = some dd → h.chan dd = some false) ∧
      (∀ e0, cc.err = some e0 → ∃ dd, cc.done = some dd ∧ h.chan dd = some true) := by
  intro j cc hcs
  unfold heapOKB at hok
  rw [Bool.and_eq_true, Bool.and_eq_true, List.all_eq_true] at hok
  have hj : j < h.nodes.length := cstateAt_isSome_lt hcs
  have hx := hok.2 j (List.mem_range.mpr hj)
  unfold chanOKB at hx
  rw [hcs] at hx
  have hx2 : (match cc.err, cc.done with
      | none, none => true
      | none, some d => decide (h.chan d = some false)
      | some _, some d => decide (h.chan d = some true)
      | some _, none => false) = true := hx
  constructor
  · intro he dd hdd
    rw [he, hdd] at hx2
    exact of_decide_eq_true hx2
  · intro e0 he
    cases hdd : cc.done with
    | none => rw [he, hdd] at hx2; exact absurd hx2 (by simp)
    | some dd =>
      rw [he, hdd] at hx2
      exact ⟨dd, rfl, of_decide_eq_true hx2⟩

/- Appending a fresh node. -/

lemma node_append_lt {h : Heap} {n : Node} {m : Nat} (hm : m < h.nodes.length) :
    ({ h with nodes := h.nodes ++ [n] } : Heap).node m = h.node m := by
  unfold Heap.node
  exact List.getElem?_append_left hm

lemma node_append_self (h : Heap) (n : Node) :
    ({ h with nodes := h.nodes ++ [n] } : Heap).node h.nodes.length = some n := by
  unfold Heap.node
  exact List.getElem?_concat_length h.nodes n

lemma node_append_gt {h : Heap} {n : Node} {m : Nat} (hm : h.nodes.length < m) :
    ({ h with nodes := h.nodes ++ [n] } : Heap).node m = none := by
  unfold Heap.node
  refine List.getElem?_eq_none_iff.mpr ?_
  simp
  omega

lemma wfParents_append {h : Heap} {n : Node} (hw : WfParents h)
    (hb : ∀ p, skelParent n.skel = some p → p < h.nodes.length) :
    WfParents { h with nodes := h.nodes ++ [n] } := by
  intro m p hp
  rcases Nat.lt_trichotomy m h.nodes.length with hm | hm | hm
  · rw [parentAt_eq_skel] at hp
    unfold skelAt at hp
    rw [node_append_lt hm] at hp
    rw [← skelAt, ← parentAt_eq_skel] at hp
    exact hw m p hp
  · subst hm
    rw [parentAt_eq_skel] at hp
    unfold skelAt at hp
    rw [node_append_self] at hp
    simp only [Option.map_some', Option.bind_some] at hp
    exact hb p hp
  · rw [parentAt_eq_skel] at hp
    unfold skelAt at hp
    rw [node_append_gt hm] at hp
    exact Option.noConfusion hp

lemma noCancelKey_append {h : Heap} {n : Node} (hnck : NoCancelKey h)
    (hn : ∀ p k v, n = Node.value p k v → k ≠ GoKey.cancelKey) :
    NoCancelKey { h with nodes := h.nodes ++ [n] } := by
  intro m p k v hm
  rcases Nat.lt_trichotomy m h.nodes.length with h1 | h1 | h1
  · rw [node_append_lt h1] at hm
    exact hnck m p k v hm
  · subst h1
    rw [node_append_self] at hm
    simp only [Option.some.injEq] at hm
    exact hn p k v hm
  · rw [node_append_gt h1] at hm
    exact Option.noConfusion hm

lemma errF_agree {h h' : Heap} (hw : WfParents h)
    (hag : ∀ m, m < h.nodes.length → h'.node m = h.node m) :
    ∀ fuel i, i < h.nodes.length → errF fuel h' i = errF fuel h i := by
  intro fuel
  induction fuel with
  | zero => intro i hi; rfl
  | succ f IH =>
    intro i hi
    unfold errF
    rw [hag i hi]
    cases hn : h.node i with
    | none => rfl
    | some n =>
      cases n with
      | value p kk v =>
        have hp : p < i := hw i p (by unfold parentAt; rw [hn])
        exact IH p (by omega)
      | cancel c => rfl
      | timer c a dl => rfl
      | empty => rfl

/-- Fuel form of the canonical cancel entry point. -/
lemma cancel_eq_succ {h : Heap} {i : Nat} (hi : i < h.nodes.length) (rm : Bool) (e : GoErr) :
    cancel h i rm e = cancelAny ((h.nodes.length - 1) + 1) h i rm e := by
  unfold cancel
  congr 1
  omega

/- Propagation under a live parent registers the child (or does nothing
under a never-cancelable parent); the child node itself is untouched. -/

lemma chan_doneAlloc_self (h : Heap) (a : Nat) :
    (doneAlloc h a).chan h.chans.length = some false := by
  unfold doneAlloc Heap.chan
  rw [chans_modifyCS]
  exact List.getElem?_concat_length h.chans false

lemma propagate_live {h : Heap} {parent child : Nat}
    (hw : WfParents h) (hnck : NoCancelKey h)
    (hch0 : h.chan closedChanId = some true)
    (hinv : ∀ j cc, cstateAt h j = some cc → cc.err = none →
      ∀ dd, cc.done = some dd → h.chan dd = some false)
    (hpc : parent < child)
    (hlive : ctxErr h parent = none) :
    (propagateCancel h parent child).node child = h.node child ∧
    (propagateCancel h parent child).nodes.length = h.nodes.length := by
  have hchar := errF_nearest h (parent+1) parent
  unfold ctxErr at hlive
  cases hnr : nearestF (parent+1) h parent with
  | none =>
    have hdone : ctxDone h parent = (none, h) := by
      unfold ctxDone
      rw [doneF_nearest h (parent+1) parent]
      simp [hnr]
    have hres : propagateCancel h parent child = h := by
      unfold propagateCancel
      rw [hdone]
    rw [hres]
    exact ⟨rfl, rfl⟩
  | some a =>
    have ha_le : a ≤ parent := nearestF_le hw (parent+1) parent a hnr
    have hnrCC : nearestCC h parent = some a := hnr
    have herrA : errAt h a = none := by
      rw [hchar, hnr] at hlive
      simpa using hlive
    obtain ⟨ca, hca⟩ := nearestF_cstate (parent+1) parent a hnr
    have hcaerr : ca.err = none := by
      unfold errAt at herrA
      rw [hca] at herrA
      simpa using herrA
    cases hda : doneAt h a with
    | some d =>
      have hcad : ca.done = some d := by
        unfold doneAt at hda
        rw [hca] at hda
        simpa using hda
      have hchand : h.chan d = some false := hinv a ca hca hcaerr d hcad
      have hne0 : d ≠ closedChanId := by
        intro he
        rw [he, hch0] at hchand
        simp at hchand
      have hdone : ctxDone h parent = (some d, h) := by
        unfold ctxDone
        rw [doneF_nearest h (parent+1) parent]
        simp [hnr, hda]
      have hpcc : parentCancelCtx h parent = (some a, h) := by
        rw [pcc_eq parent hw hnck]
        simp [hnrCC, hda, hne0]
      have hres : propagateCancel h parent child =
          modifyCS h a (fun c0 => { c0 with children := c0.children ++ [child] }) := by
        unfold propagateCancel
        rw [hdone]
        simp [hchand, hpcc, hca, hcaerr]
      rw [hres]
      constructor
      · exact node_modifyCS_ne _ (by omega)
      · exact length_modifyCS h a _
    | none =>
      have hlen0 : 0 < h.chans.length := chan_lt_length hch0
      have hne0 : h.chans.length ≠ closedChanId := by
        unfold closedChanId
        omega
      have hdone : ctxDone h parent = (some h.chans.length, doneAlloc h a) := by
        unfold ctxDone
        rw [doneF_nearest h (parent+1) parent]
        simp [hnr, hda]
      have hchand : (doneAlloc h a).chan h.chans.length = some false :=
        chan_doneAlloc_self h a
      have hcs1 : cstateAt (doneAlloc h a) a =
          some { ca with done := some h.chans.length } := by
        unfold doneAlloc
        exact cstateAt_modifyCS_self _ hca
      have hev : Evolves h (doneAlloc h a) := evolves_doneAlloc hda
      have hw1 := wfParents_of_skel hev.2.1 hw
      have hnck1 := noCancelKey_of_skel hev.2.1 hnck
      have hnr1 : nearestCC (doneAlloc h a) parent = some a := by
        unfold nearestCC
        rw [nearestF_congr hev.2.1 (parent+1) parent]
        exact hnr
      have hda1 : doneAt (doneAlloc h a) a = some h.chans.length := by
        unfold doneAt
        rw [hcs1]
        rfl
      have hlen1 : (doneAlloc h a).chans.length = h.chans.length + 1 := by
        unfold doneAlloc
        rw [chans_modifyCS]
        simp
      have hpcc : parentCancelCtx (doneAlloc h a) parent = (some a, doneAlloc h a) := by
        rw [pcc_eq parent hw1 hnck1]
        simp [hnr1, hda1, hne0]
      have hres : propagateCancel h parent child =
          modifyCS (doneAlloc h a) a
            (fun c0 => { c0 with children := c0.children ++ [child] }) := by
        unfold propagateCancel
        rw [hdone]
        simp [hchand, hpcc, hcs1, hcaerr]
      rw [hres]
      constructor
      · rw [node_modifyCS_ne _ (by omega)]
        unfold doneAlloc
        rw [node_modifyCS_ne _ (by omega)]
        rfl
      · rw [length_modifyCS]
        unfold doneAlloc
        rw [length_modifyCS]

/- Propagation under an already-canceled ancestor cancels the child
immediately with the ancestor's cause. -/

lemma propagate_canceled {h : Heap} {parent child : Nat} {e : GoErr}
    (hw : WfParents h)
    (hinvDead : ∀ j cc, cstateAt h j = some cc → ∀ e0, cc.err = some e0 →
      ∃ dd, cc.done = some dd ∧ h.chan dd = some true)
    (hcanc : ctxErr h parent = some e) :
    propagateCancel h parent child = cancelAny h.nodes.length h child false e := by
  have hchar := errF_nearest h (parent+1) parent
  have hlive2 := hcanc
  unfold ctxErr at hlive2
  cases hnr : nearestF (parent+1) h parent with
  | none =>
    rw [hchar, hnr] at hlive2
    simp at hlive2
  | some a =>
    have herrA : errAt h a = some e := by
      rw [hchar, hnr] at hlive2
      simpa using hlive2
    obtain ⟨ca, hca⟩ := nearestF_cstate (parent+1) parent a hnr
    have hcaerr : ca.err = some e := by
      unfold errAt at herrA
      rw [hca] at herrA
      simpa using herrA
    obtain ⟨da, hda, hchand⟩ := hinvDead a ca hca e hcaerr
    have hdaA : doneAt h a = some da := by
      unfold doneAt
      rw [hca]
      simpa using hda
    have hdone : ctxDone h parent = (some da, h) := by
      unfold ctxDone
      rw [doneF_nearest h (parent+1) parent]
      simp [hnr, hdaA]
    unfold propagateCancel
    rw [hdone]
    simp [hchand, hcanc]

lemma cstateAt_append_lt {h : Heap} {n : Node} {m : Nat} (hm : m < h.nodes.length) :
    cstateAt ({ h with nodes := h.nodes ++ [n] } : Heap) m = cstateAt h m := by
  unfold cstateAt
  rw [node_append_lt hm]

lemma reach_of_fresh {h : Heap} {child : Nat} (fuel : Nat)
    (hch : childrenAt h child = []) : reachF (fuel+1) h child = [child] := by
  rw [reachF_succ, hch]
  rfl

/- Effect of cancellation on the done channel. -/

lemma ccCancel_done_closedchan (recur : Heap → Nat → GoErr → Heap)
    {h : Heap} {i : Nat} {c : CState} (rm : Bool) (e : GoErr)
    (hrec : ∀ hh ch e', Evolves hh (recur hh ch e'))
    (hc : cstateAt h i = some c) (hce : c.err = none) (hd : c.done = none) :
    doneAt (ccCancel recur h i c rm e) i = some closedChanId := by
  have hgf : c.err.isSome = false := by rw [hce]; rfl
  unfold ccCancel
  simp only [hgf, Bool.false_eq_true, if_false, hd]
  have h2done : doneAt (modifyCS (modifyCS h i (fun c0 => { c0 with err := some e })) i
      (fun c0 => { c0 with done := some closedChanId })) i = some closedChanId := by
    unfold doneAt
    rw [cstateAt_modifyCS_self _ (cstateAt_modifyCS_self _ hc)]
    rfl
  have h3done := foldl_inv (fun hh => doneAt hh i = some closedChanId)
    (fun hh2 ch => recur hh2 ch e) c.children
    (fun hh2 a ha hP => (hrec hh2 a e).2.2.2.2.2 i closedChanId hP) _ h2done
  have h4done : doneAt (modifyCS (c.children.foldl (fun hh2 ch => recur hh2 ch e)
      (modifyCS (modifyCS h i (fun c0 => { c0 with err := some e })) i
        (fun c0 => { c0 with done := some closedChanId }))) i
      (fun c0 => { c0 with children := ([] : List Nat) })) i = some closedChanId := by
    rw [doneAt_modifyCS_pres (fun c0 => { c0 with children := ([] : List Nat) })
      (fun c0 => rfl) i]
    exact h3done
  cases rm with
  | true => exact (evolves_removeChild _ c.parent i).2.2.2.2.2 i closedChanId h4done
  | false => exact h4done

lemma ccCancel_done_keep (recur : Heap → Nat → GoErr → Heap)
    {h : Heap} {i : Nat} {c : CState} {d : Nat} (rm : Bool) (e : GoErr)
    (hrec : ∀ hh ch e', Evolves hh (recur hh ch e'))
    (hc : cstateAt h i = some c) (hce : c.err = none) (hd : c.done = some d) :
    doneAt (ccCancel recur h i c rm e) i = some d := by
  have hgf : c.err.isSome = false := by rw [hce]; rfl
  unfold ccCancel
  simp only [hgf, Bool.false_eq_true, if_false, hd]
  have h2done : doneAt ({ modifyCS h i (fun c0 => { c0 with err := some e }) with
      chans := (modifyCS h i (fun c0 => { c0 with err := some e })).chans.set d true } : Heap) i
      = some d := by
    show doneAt (modifyCS h i (fun c0 => { c0 with err := some e })) i = some d
    unfold doneAt
    rw [cstateAt_modifyCS_self _ hc]
    simpa using hd
  have h3done := foldl_inv (fun hh => doneAt hh i = some d)
    (fun hh2 ch => recur hh2 ch e) c.children
    (fun hh2 a ha hP => (hrec hh2 a e).2.2.2.2.2 i d hP) _ h2done
  have h4done : doneAt (modifyCS (c.children.foldl (fun hh2 ch => recur hh2 ch e)
      ({ modifyCS h i (fun c0 => { c0 with err := some e }) with
        chans := (modifyCS h i (fun c0 => { c0 with err := some e })).chans.set d true } : Heap)) i
      (fun c0 => { c0 with children := ([] : List Nat) })) i = some d := by
    rw [doneAt_modifyCS_pres (fun c0 => { c0 with children := ([] : List Nat) })
      (fun c0 => rfl) i]
    exact h3done
  cases rm with
  | true => exact (evolves_removeChild _ c.parent i).2.2.2.2.2 i d h4done
  | false => exact h4done

lemma ccCancel_chan_closed (recur : Heap → Nat → GoErr → Heap)
    {h : Heap} {i : Nat} {c : CState} {d : Nat} (rm : Bool) (e : GoErr)
    (hrec : ∀ hh ch e', Evolves hh (recur hh ch e'))
    (hc : cstateAt h i = some c) (hce : c.err = none) (hd : c.done = some d)
    (hdb : d < h.chans.length) :
    (ccCancel recur h i c rm e).chan d = some true := by
  have hgf : c.err.isSome = false := by rw [hce]; rfl
  unfold ccCancel
  simp only [hgf, Bool.false_eq_true, if_false, hd]
  have h2chan : ({ modifyCS h i (fun c0 => { c0 with err := some e }) with
      chans := (modifyCS h i (fun c0 => { c0 with err := some e })).chans.set d true } : Heap).chan d
      = some true := by
    unfold Heap.chan
    simp only []
    rw [chans_modifyCS]
    exact List.getElem?_set_self hdb
  have h3chan := foldl_inv (fun hh => hh.chan d = some true)
    (fun hh2 ch => recur hh2 ch e) c.children
    (fun hh2 a ha hP => (hrec hh2 a e).2.2.2.2.1 d hP) _ h2chan
  have h4chan : (modifyCS (c.children.foldl (fun hh2 ch => recur hh2 ch e)
      ({ modifyCS h i (fun c0 => { c0 with err := some e }) with
        chans := (modifyCS h i (fun c0 => { c0 with err := some e })).chans.set d true } : Heap)) i
      (fun c0 => { c0 with children := ([] : List Nat) })).chan d = some true := by
    rw [chan_modifyCS]
    exact h3chan
  cases rm with
  | true => exact (evolves_removeChild _ c.parent i).2.2.2.2.1 d h4chan
  | false => exact h4chan

lemma cancelAny_done_effect {h : Heap} {i : Nat} {c : CState} (fuel : Nat) (rm : Bool)
    (e : GoErr) (hc : cstateAt h i = some c) (hce : c.err = none) :
    (c.done = none → doneAt (cancelAny (fuel+1) h i rm e) i = some closedChanId) ∧
    (∀ d, c.done = some d → doneAt (cancelAny (fuel+1) h i rm e) i = some d) ∧
    (∀ d, c.done = some d → d < h.chans.length →
      (cancelAny (fuel+1) h i rm e).chan d = some true) := by
  have hrec : ∀ hh ch e', Evolves hh (cancelAny fuel hh ch false e') :=
    fun hh ch e' => cancelAny_evolves fuel hh ch false e'
  unfold cstateAt at hc
  cases hn : h.node i with
  | none => rw [hn] at hc; exact Option.noConfusion hc
  | some n =>
    cases n with
    | empty => rw [hn] at hc; exact Option.noConfusion hc
    | value p k v => rw [hn] at hc; exact Option.noConfusion hc
    | cancel c0 =>
      rw [hn] at hc
      simp only [Option.some.injEq] at hc
      subst hc
      rw [cancelAny_eq_cancel hn]
      have hcs : cstateAt h i = some c0 := by unfold cstateAt; rw [hn]
      exact ⟨fun hd => ccCancel_done_closedchan _ rm e hrec hcs hce hd,
        fun d hd => ccCancel_done_keep _ rm e hrec hcs hce hd,
        fun d hd hdb => ccCancel_chan_closed _ rm e hrec hcs hce hd hdb⟩
    | timer c0 a dl =>
      rw [hn] at hc
      simp only [Option.some.injEq] at hc
      subst hc
      have hcs : cstateAt h i = some c0 := by unfold cstateAt; rw [hn]
      have hstop_done : ∀ (hh : Heap) (d0 : Nat), doneAt hh i = some d0 →
          doneAt (stopTimer hh i) i = some d0 :=
        fun hh d0 hP => (evolves_stopTimer hh i).2.2.2.2.2 i d0 hP
      have hstop_chan : ∀ (hh : Heap) (d0 : Nat), hh.chan d0 = some true →
          (stopTimer hh i).chan d0 = some true :=
        fun hh d0 hP => (evolves_stopTimer hh i).2.2.2.2.1 d0 hP
      cases rm with
      | true =>
        rw [cancelAny_eq_timer_true hn]
        refine ⟨fun hd => ?_, fun d hd => ?_, fun d hd hdb => ?_⟩
        · exact hstop_done _ _ ((evolves_removeChild _ c0.parent i).2.2.2.2.2 i closedChanId
            (ccCancel_done_closedchan _ false e hrec hcs hce hd))
        · exact hstop_done _ _ ((evolves_removeChild _ c0.parent i).2.2.2.2.2 i d
            (ccCancel_done_keep _ false e hrec hcs hce hd))
        · exact hstop_chan _ _ ((evolves_removeChild _ c0.parent i).2.2.2.2.1 d
            (ccCancel_chan_closed _ false e hrec hcs hce hd hdb))
      | false =>
        rw [cancelAny_eq_timer_false hn]
        refine ⟨fun hd => ?_, fun d hd => ?_, fun d hd hdb => ?_⟩
        · exact hstop_done _ _ (ccCancel_done_closedchan _ false e hrec hcs hce hd)
        · exact hstop_done _ _ (ccCancel_done_keep _ false e hrec hcs hce hd)
        · exact hstop_chan _ _ (ccCancel_chan_closed _ false e hrec hcs hce hd hdb)

/-- The `Done` method of a node whose channel is already stored returns
it without touching the heap. -/
lemma ctxDone_self_of_done {h : Heap} {j : Nat} {c : CState} {d : Nat}
    (hc : cstateAt h j = some c) (hd : c.done = some d) :
    ctxDone h j = (some d, h) := by
  unfold ctxDone
  rw [doneF_nearest h (j+1) j]
  have hda : doneAt h j = some d := by
    unfold doneAt
    rw [hc]
    simpa using hd
  have hnr : nearestF (j+1) h j = some j := by
    unfold nearestF
    unfold cstateAt at hc
    cases hn : h.node j with
    | none => rw [hn] at hc; exact Option.noConfusion hc
    | some n =>
      cases n with
      | empty => rw [hn] at hc; exact Option.noConfusion hc
      | value p k v => rw [hn] at hc; exact Option.noConfusion hc
      | cancel c0 => rfl
      | timer c0 a dl => rfl
  simp [hnr, hda]

lemma cancel_eq {h : Heap} {i : Nat} {rm : Bool} {e : GoErr} {f : Nat}
    (hf : h.nodes.length = f + 1) : cancel h i rm e = cancelAny (f+1) h i rm e := by
  unfold cancel
  rw [hf]

lemma goodB_reach_cc : ∀ (fuel : Nat) (h : Heap) (i : Nat), goodB fuel h i = true →
    ∀ j ∈ reachF fuel h i, ∃ c, cstateAt h j = some c := by
  intro fuel
  induction fuel with
  | zero => intro h i hg; exact absurd hg (by simp [goodB])
  | succ f IH =>
    intro h i hg j hj
    obtain ⟨c, hc, hce, hgood⟩ := goodB_props hg
    rw [reachF_succ] at hj
    rcases List.mem_cons.mp hj with rfl | hjf
    · exact ⟨c, hc⟩
    · obtain ⟨ch, hch, hjr⟩ := List.mem_flatMap.mp hjf
      have hcc : childrenAt h i = c.children := by
        unfold childrenAt
        rw [hc]
        rfl
      rw [hcc] at hch
      exact IH h ch (hgood ch hch) j hjr

/-- C1: for every cancelable or deadline node, the first cancel
invocation with a non-nil cause records exactly that cause, and every
later cancel invocation (explicit trigger, ancestor cascade with any
cause, or the deadline timer) leaves the node's recorded error, done
channel and child set unchanged. -/
theorem c1_cancel_at_most_once (h : Heap) (i : Nat) (c : CState)
    (rm rm' : Bool) (e e' : GoErr)
    (hok : skelOKB h = true) (hc : cstateAt h i = some c) (hce : c.err = none) :
    errAt (cancel h i rm e) i = some e ∧
    errAt (cancel (cancel h i rm e) i rm' e') i = errAt (cancel h i rm e) i ∧
    doneAt (cancel (cancel h i rm e) i rm' e') i = doneAt (cancel h i rm e) i ∧
    childrenAt (cancel (cancel h i rm e) i rm' e') i = childrenAt (cancel h i rm e) i := by
  have hw := skelOK_wf hok
  have hnck := skelOK_nck hok
  have hi : i < h.nodes.length := cstateAt_isSome_lt hc
  obtain ⟨f, hfL⟩ : ∃ f, h.nodes.length = f + 1 := ⟨h.nodes.length - 1, by omega⟩
  rw [cancel_eq hfL]
  have hev : Evolves h (cancelAny (f+1) h i rm e) := cancelAny_evolves (f+1) h i rm e
  have herr1 : errAt (cancelAny (f+1) h i rm e) i = some e :=
    cancelAny_err_self f rm e hc hce
  obtain ⟨c1, hc1⟩ := cstate_some_of_skel (hev.2.1 i) hc
  have hc1err : c1.err = some e := by
    unfold errAt at herr1
    rw [hc1] at herr1
    simpa using herr1
  have hw1 := wfParents_of_skel hev.2.1 hw
  have hnck1 := noCancelKey_of_skel hev.2.1 hnck
  have hf1 : (cancelAny (f+1) h i rm e).nodes.length = f + 1 := hev.1.trans hfL
  rw [cancel_eq hf1]
  have hnoop := cancelAny_noop f rm' e' hw1 hnck1 hc1 (by rw [hc1err]; rfl)
  have hfields := node_noop_fields hc1
  refine ⟨herr1, ?_, ?_, ?_⟩
  · rw [hnoop.1, hfields.1]
  · rw [hnoop.2.1, hfields.2.1]
  · rw [hnoop.2.2, hfields.2.2]

theorem c1_witness :
    errAt (cancel exChain.1 1 true .canceled) 1 = some .canceled ∧
    errAt (cancel (cancel exChain.1 1 true .canceled) 1 false .deadlineExceeded) 1
      = errAt (cancel exChain.1 1 true .canceled) 1 :=
  ⟨(c1_cancel_at_most_once exChain.1 1
      { parent := 0, done := some 1, children := [3], err := none }
      true false .canceled .deadlineExceeded (by decide) (by decide) (by decide)).1,
   (c1_cancel_at_most_once exChain.1 1
      { parent := 0, done := some 1, children := [3], err := none }
      true false .canceled .deadlineExceeded (by decide) (by decide) (by decide)).2.1⟩

/-- C2: canceling a cancelable node cancels every tracked descendant
transitively with the same cause — each descendant's `Err()` afterwards
returns the originating cause — and the canceled node's child set is
empty after the call. -/
theorem c2_cancel_cascades (h : Heap) (i : Nat) (rm : Bool) (e : GoErr)
    (hok : skelOKB h = true)
    (hg : goodB h.nodes.length h i = true)
    (hnd : (subtreeOf h i).Nodup) :
    (∀ j ∈ subtreeOf h i, ctxErr (cancel h i rm e) j = some e) ∧
    childrenAt (cancel h i rm e) i = [] := by
  have hw := skelOK_wf hok
  have hnck := skelOK_nck hok
  obtain ⟨f, hfL⟩ : ∃ f, h.nodes.length = f + 1 := by
    cases hL : h.nodes.length with
    | zero => rw [hL] at hg; exact absurd hg (by simp [goodB])
    | succ f2 => exact ⟨f2, rfl⟩
  unfold subtreeOf at hnd ⊢
  rw [cancel_eq hfL]
  rw [hfL] at hg hnd ⊢
  obtain ⟨c, hc, hce, hgood⟩ := goodB_props hg
  constructor
  · intro j hj
    have herr := cancelAny_errs (f+1) h i rm e hg hnd j hj
    obtain ⟨cj, hcj⟩ := goodB_reach_cc (f+1) h i hg j hj
    have hevc := cancelAny_evolves (f+1) h i rm e
    obtain ⟨cj', hcj'⟩ := cstate_some_of_skel (hevc.2.1 j) hcj
    rw [ctxErr_cc hcj']
    exact herr
  · exact cancelAny_clears_children f rm e hw hnck hc hce

theorem c2_witness :
    ctxErr (cancel exChain.1 1 true .canceled) 3 = some .canceled ∧
    childrenAt (cancel exChain.1 1 true .canceled) 1 = [] :=
  ⟨(c2_cancel_cascades exChain.1 1 true .canceled
      (by decide) (by decide) (by decide)).1 3 (by decide),
   (c2_cancel_cascades exChain.1 1 true .canceled
      (by decide) (by decide) (by decide)).2⟩

/-- C5: looking up a user key from any node returns the value bound by
the nearest node on the path to the root (inclusive of the starting
node) whose bound key equals it — the head of the path's binding list —
and returns nil when no node on that path bound the key. -/
theorem c5_lookup_nearest_binding (h : Heap) (i : Nat) (u : Nat) :
    ctxValue h i (.user u) = assocFind (ctxBindings h i) (.user u) :=
  valueF_assoc h u (i+1) i

/-- C7: a deadline node canceled explicitly before its deadline records
`Canceled`, its timer is stopped and released, and even if the timer
callback fires afterwards the error never becomes `DeadlineExceeded`. -/
theorem c7_timer_explicit_cancel (h : Heap) (i : Nat) (c : CState) (a : Bool) (dl : Int)
    (hok : skelOKB h = true) (hn : h.node i = some (.timer c a dl)) (hce : c.err = none) :
    errAt (cancel h i true .canceled) i = some .canceled ∧
    timerAt (cancel h i true .canceled) i = false ∧
    errAt (fireTimer (cancel h i true .canceled) i) i = some .canceled := by
  have hw := skelOK_wf hok
  have hnck := skelOK_nck hok
  have hc : cstateAt h i = some c := by unfold cstateAt; rw [hn]
  have hi : i < h.nodes.length := node_lt_length hn
  obtain ⟨f, hfL⟩ : ∃ f, h.nodes.length = f + 1 := ⟨h.nodes.length - 1, by omega⟩
  rw [cancel_eq hfL]
  have hev : Evolves h (cancelAny (f+1) h i true .canceled) :=
    cancelAny_evolves (f+1) h i true .canceled
  have herr1 : errAt (cancelAny (f+1) h i true .canceled) i = some .canceled :=
    cancelAny_err_self f true .canceled hc hce
  refine ⟨herr1, cancelAny_timer_stopped f true .canceled hn, ?_⟩
  unfold fireTimer
  obtain ⟨c1, hc1⟩ := cstate_some_of_skel (hev.2.1 i) hc
  have hc1err : c1.err = some .canceled := by
    unfold errAt at herr1
    rw [hc1] at herr1
    simpa using herr1
  have hf1 : (cancelAny (f+1) h i true .canceled).nodes.length = f + 1 := hev.1.trans hfL
  rw [cancel_eq hf1]
  have hnoop := cancelAny_noop f true .deadlineExceeded
    (wfParents_of_skel hev.2.1 hw) (noCancelKey_of_skel hev.2.1 hnck) hc1
    (by rw [hc1err]; rfl)
  rw [hnoop.1, hc1err]

theorem c7_witness :
    errAt (cancel exTimer.1 1 true .canceled) 1 = some .canceled ∧
    timerAt (cancel exTimer.1 1 true .canceled) 1 = false ∧
    errAt (fireTimer (cancel exTimer.1 1 true .canceled) 1) 1 = some .canceled :=
  c7_timer_explicit_cancel exTimer.1 1 (newCancelCtx 0) true 10
    (by decide) (by decide) (by decide)

/-- C3: the spec says the lookup returns "not found" whenever the
parent's done channel is already closed; the code only compares the
reported channel against the shared `closedchan` by identity, so a
parent whose privately allocated done channel was closed by a cancel is
still reported as found.  In `c3Heap` node 1 was canceled after its
`Done` channel (id 1) had been allocated: the channel is closed, yet
the lookup succeeds. -/
theorem c3_counterexample :
    (ctxDone c3Heap 1).1 = some 1 ∧
    c3Heap.chan 1 = some true ∧
    (parentCancelCtx c3Heap 1).1 = some 1 := by decide

/-- C3 (amended): the cancelable-ancestor lookup returns "not found"
when the parent's `Done` is nil or is the shared pre-closed channel
(identity comparison only — not an arbitrary closed channel); when it
returns a node, the reported done channel is non-nil, differs from the
shared closed channel, the internal-key walk answered that node, and
the node's stored done channel equals the reported one. -/
theorem c3_amended_pcc (h : Heap) (parent : Nat) :
    ((ctxDone h parent).1 = none → (parentCancelCtx h parent).1 = none) ∧
    ((ctxDone h parent).1 = some closedChanId → (parentCancelCtx h parent).1 = none) ∧
    (∀ p, (parentCancelCtx h parent).1 = some p →
      ∃ d, (ctxDone h parent).1 = some d ∧ d ≠ closedChanId ∧
        ctxValue (ctxDone h parent).2 parent .cancelKey = .vctx p ∧
        ∃ c, cstateAt (ctxDone h parent).2 p = some c ∧ c.done = some d) := by
  cases hdp : ctxDone h parent with
  | mk o h1 =>
    refine ⟨?_, ?_, ?_⟩
    · intro hnone
      simp only at hnone
      subst hnone
      unfold parentCancelCtx
      rw [hdp]
    · intro hcc
      simp only at hcc
      subst hcc
      unfold parentCancelCtx
      rw [hdp]
      simp
    · intro p hp
      unfold parentCancelCtx at hp
      rw [hdp] at hp
      cases o with
      | none => simp at hp
      | some d =>
        by_cases hdc : d = closedChanId
        · simp [hdc] at hp
        · cases hv : ctxValue h1 parent .cancelKey with
          | vnil => simp [hdc, hv] at hp
          | vint m => simp [hdc, hv] at hp
          | vctx q =>
            cases hcs : cstateAt h1 q with
            | none => simp [hdc, hv, hcs] at hp
            | some c =>
              by_cases hcd : c.done = some d
              · have hqp : q = p := by simp [hdc, hv, hcs, hcd] at hp; exact hp
                subst hqp
                exact ⟨d, rfl, hdc, rfl, c, hcs, hcd⟩
              · simp [hdc, hv, hcs, hcd] at hp

theorem c3_amended_witness :
    (parentCancelCtx h0 0).1 = none :=
  (c3_amended_pcc h0 0).1 (by decide)

lemma deadlineF_step_value {h : Heap} {i p : Nat} {k : GoKey} {v : GoVal}
    (hn : h.node i = some (.value p k v)) :
    deadlineF (i+1) h i = deadlineF i h p := by
  conv_lhs => rw [deadlineF.eq_def]
  simp [hn]

lemma deadlineF_step_cancel {h : Heap} {i : Nat} {c : CState}
    (hn : h.node i = some (.cancel c)) :
    deadlineF (i+1) h i = deadlineF i h c.parent := by
  conv_lhs => rw [deadlineF.eq_def]
  simp [hn]

/-- C4: the spec says every non-deadline node reports an absent
deadline; the code promotes the embedded parent context's `Deadline`
method on value and plain cancelable nodes, so a plain cancelable node
under a deadline ancestor reports the ancestor's deadline with
ok = true.  In `c4Heap` node 2 is a plain cancelable node whose parent
(node 1) is a deadline node with deadline 10. -/
theorem c4_counterexample :
    c4Heap.node 2 = some (.cancel (newCancelCtx 1)) ∧
    ctxDeadline c4Heap 2 = (10, true) := by decide

/-- C4 (amended): `Deadline` follows Go struct embedding — a deadline
node reports its own time with ok = true, an `emptyCtx` reports absent,
and value-binding and plain cancelable nodes delegate to their parent
(so they report an ancestor deadline when one exists, rather than
always reporting absent). -/
theorem c4_amended_deadline_promotion (h : Heap) (i : Nat)
    (hw : wfParentsB h = true) :
    (∀ p k v, h.node i = some (.value p k v) → ctxDeadline h i = ctxDeadline h p) ∧
    (∀ c, h.node i = some (.cancel c) → ctxDeadline h i = ctxDeadline h c.parent) ∧
    (∀ c a dl, h.node i = some (.timer c a dl) → ctxDeadline h i = (dl, true)) ∧
    (h.node i = some .empty → ctxDeadline h i = (0, false)) := by
  have hwf := wfParents_of_B hw
  refine ⟨?_, ?_, ?_, ?_⟩
  · intro p k v hn
    have hp : p < i := hwf i p (by unfold parentAt; rw [hn])
    show deadlineF (i+1) h i = deadlineF (p+1) h p
    rw [deadlineF_step_value hn]
    exact deadlineF_fuel hwf p i hp
  · intro c hn
    have hp : c.parent < i := hwf i c.parent (by unfold parentAt; rw [hn])
    show deadlineF (i+1) h i = deadlineF (c.parent+1) h c.parent
    rw [deadlineF_step_cancel hn]
    exact deadlineF_fuel hwf c.parent i hp
  · intro c a dl hn
    show deadlineF (i+1) h i = (dl, true)
    conv_lhs => rw [deadlineF.eq_def]
    simp [hn]
  · intro hn
    show deadlineF (i+1) h i = (0, false)
    conv_lhs => rw [deadlineF.eq_def]
    simp [hn]

theorem c4_amended_witness :
    ctxDeadline exTimer.1 1 = (10, true) :=
  (c4_amended_deadline_promotion exTimer.1 1 (by decide)).2.2.1
    (newCancelCtx 0) true 10 (by decide)

/-- C10: `WithValue` accepts a nil value: with a non-nil parent and
key it succeeds (appending the binding node), a lookup of that key from
the new node returns nil — exactly what an unbound lookup returns — and
every other key's lookup is unchanged from the parent's. -/
theorem c10_withvalue_nil (h : Heap) (p : Nat) (k : GoKey)
    (hw : wfParentsB h = true) (hp : p < h.nodes.length) :
    WithValue h (some p) (some k) .vnil
      = some ({ h with nodes := h.nodes ++ [.value p k .vnil] }, h.nodes.length) ∧
    ctxValue { h with nodes := h.nodes ++ [.value p k .vnil] } h.nodes.length k = .vnil ∧
    ∀ k2, k2 ≠ k →
      ctxValue { h with nodes := h.nodes ++ [.value p k .vnil] } h.nodes.length k2
        = ctxValue h p k2 := by
  have hwf := wfParents_of_B hw
  have hn1 := node_append_self h (.value p k .vnil)
  refine ⟨rfl, ?_, ?_⟩
  · show valueF (h.nodes.length+1) _ h.nodes.length k = .vnil
    conv_lhs => rw [valueF.eq_def]
    simp [hn1]
  · intro k2 hk2
    have hstep : valueF (h.nodes.length+1)
        { h with nodes := h.nodes ++ [.value p k .vnil] } h.nodes.length k2
        = valueF h.nodes.length
            { h with nodes := h.nodes ++ [.value p k .vnil] } p k2 := by
      conv_lhs => rw [valueF.eq_def]
      simp [hn1, hk2]
    have hw1 : WfParents { h with nodes := h.nodes ++ [.value p k .vnil] } := by
      refine wfParents_append hwf ?_
      intro q hq
      simp only [Node.skel, skelParent, Option.some.injEq] at hq
      omega
    show valueF (h.nodes.length+1) _ h.nodes.length k2 = valueF (p+1) h p k2
    rw [hstep, valueF_fuel hw1 k2 p h.nodes.length hp]
    exact valueF_agree hwf (fun m hm => node_append_lt hm) k2 (p+1) p hp

theorem c10_witness :
    ctxValue { h0 with nodes := h0.nodes ++ [.value 0 (.user 3) .vnil] }
      h0.nodes.length (.user 3) = .vnil ∧
    ctxValue { h0 with nodes := h0.nodes ++ [.value 0 (.user 3) .vnil] }
      h0.nodes.length (.user 7) = ctxValue h0 0 (.user 7) :=
  ⟨(c10_withvalue_nil h0 0 (.user 3) (by decide) (by decide)).2.1,
   (c10_withvalue_nil h0 0 (.user 3) (by decide) (by decide)).2.2
     (.user 7) (by decide)⟩

/-- C6: the spec says an already-expired deadline yields
`DeadlineExceeded` immediately; but when the parent is already canceled
at construction time, `propagateCancel` cancels the new node with the
parent's cause first, and the subsequent expiry cancel is a no-op, so
`Err()` is `Canceled` instead.  In `c6Heap` the parent (node 1) was
canceled before `WithDeadline` ran with an already-passed target. -/
theorem c6_counterexample :
    errAt c6Heap 2 ≠ some .deadlineExceeded ∧
    errAt c6Heap 2 = some .canceled ∧
    timerAt c6Heap 2 = false := by decide

/-- C6 (amended): when `WithDeadline` is called with an already-passed
target time under a live parent (parent's `Err()` still nil) whose own
deadline does not route the call to the plain-cancel degradation, the
returned node's recorded error is `DeadlineExceeded` immediately and no
timer is armed. -/
theorem c6_amended_expired (h : Heap) (now : Int) (parent : Nat) (d : Int)
    (hok : heapOKB h = true) (hp : parent < h.nodes.length)
    (herr : ctxErr h parent = none)
    (hroute : (ctxDeadline h parent).2 = true → ¬ (ctxDeadline h parent).1 < d)
    (hpast : d - now ≤ 0) :
    errAt (WithDeadline h now parent d).1 (WithDeadline h now parent d).2
      = some .deadlineExceeded ∧
    timerAt (WithDeadline h now parent d).1 (WithDeadline h now parent d).2 = false := by
  have hwf := skelOK_wf (heapOK_skel hok)
  have hnck := skelOK_nck (heapOK_skel hok)
  have hroute2 : WithDeadline h now parent d = WithDeadline.WithDeadlineBuild h now parent d := by
    unfold WithDeadline
    cases hdl : ctxDeadline h parent with
    | mk cur ok =>
      cases ok with
      | false => rfl
      | true =>
        have hnd := hroute (by rw [hdl])
        rw [hdl] at hnd
        simp only at hnd
        simp [hnd]
  have hbuild : WithDeadline.WithDeadlineBuild h now parent d
      = (cancel (propagateCancel
            { h with nodes := h.nodes ++ [.timer (newCancelCtx parent) false d] }
            parent h.nodes.length) h.nodes.length true .deadlineExceeded,
         h.nodes.length) := by
    unfold WithDeadline.WithDeadlineBuild
    rw [if_pos hpast]
  rw [hroute2, hbuild]
  have hn1 := node_append_self h (.timer (newCancelCtx parent) false d)
  have hw1 : WfParents { h with nodes := h.nodes ++ [.timer (newCancelCtx parent) false d] } := by
    refine wfParents_append hwf ?_
    intro q hq
    simp only [Node.skel, skelParent, Option.some.injEq, newCancelCtx] at hq
    omega
  have hnck1 : NoCancelKey { h with nodes := h.nodes ++ [.timer (newCancelCtx parent) false d] } := by
    refine noCancelKey_append hnck ?_
    intro p2 k2 v2 hv2
    exact Node.noConfusion hv2
  have hch1 : ({ h with nodes := h.nodes ++ [.timer (newCancelCtx parent) false d] } : Heap).chan
      closedChanId = some true := by
    show h.chan closedChanId = some true
    exact heapOK_chan0 hok
  have hinv1 : ∀ j cc, cstateAt { h with nodes := h.nodes ++ [.timer (newCancelCtx parent) false d] } j
      = some cc → cc.err = none → ∀ dd, cc.done = some dd →
      ({ h with nodes := h.nodes ++ [.timer (newCancelCtx parent) false d] } : Heap).chan dd
        = some false := by
    intro j cc hcs hcerr dd hdd
    rcases Nat.lt_trichotomy j h.nodes.length with hj | hj | hj
    · rw [cstateAt_append_lt hj] at hcs
      exact (heapOK_chanInv hok j cc hcs).1 hcerr dd hdd
    · subst hj
      unfold cstateAt at hcs
      rw [hn1] at hcs
      simp only [Option.some.injEq] at hcs
      subst hcs
      exact Option.noConfusion hdd
    · unfold cstateAt at hcs
      rw [node_append_gt hj] at hcs
      exact Option.noConfusion hcs
  have herr1 : ctxErr { h with nodes := h.nodes ++ [.timer (newCancelCtx parent) false d] } parent
      = none := by
    unfold ctxErr
    rw [errF_agree hwf (fun m hm => node_append_lt hm) (parent+1) parent hp]
    exact herr
  have hlive := propagate_live hw1 hnck1 hch1 hinv1 hp herr1
  have hn2 : (propagateCancel { h with nodes := h.nodes ++ [.timer (newCancelCtx parent) false d] }
      parent h.nodes.length).node h.nodes.length
      = some (.timer (newCancelCtx parent) false d) := by
    rw [hlive.1]
    exact hn1
  have hcs2 : cstateAt (propagateCancel
      { h with nodes := h.nodes ++ [.timer (newCancelCtx parent) false d] } parent h.nodes.length)
      h.nodes.length = some (newCancelCtx parent) := by
    unfold cstateAt
    rw [hn2]
  have hlen2 : (propagateCancel { h with nodes := h.nodes ++ [.timer (newCancelCtx parent) false d] }
      parent h.nodes.length).nodes.length = h.nodes.length + 1 := by
    rw [hlive.2]
    simp
  constructor
  · show errAt (cancel _ h.nodes.length true .deadlineExceeded) h.nodes.length
      = some .deadlineExceeded
    rw [cancel_eq hlen2]
    exact cancelAny_err_self h.nodes.length true .deadlineExceeded hcs2 rfl
  · show timerAt (cancel _ h.nodes.length true .deadlineExceeded) h.nodes.length = false
    rw [cancel_eq hlen2]
    exact cancelAny_timer_stopped h.nodes.length true .deadlineExceeded hn2

theorem c6_amended_witness :
    errAt (WithDeadline h0 0 0 0).1 (WithDeadline h0 0 0 0).2 = some .deadlineExceeded ∧
    timerAt (WithDeadline h0 0 0 0).1 (WithDeadline h0 0 0 0).2 = false :=
  c6_amended_expired h0 0 0 0 (by decide) (by decide) (by decide)
    (by intro hx; exact absurd hx (by decide)) (by decide)

/-- C8: constructing a cancelable node under a parent that is already
canceled cancels the new node immediately with the parent's recorded
cause and with detachFromParent = false: `propagateCancel` equals a
direct cancel call with `removeFromParent = false` and the parent's
cause, and the new node's recorded error is that cause afterwards. -/
theorem c8_child_under_dead_parent (h : Heap) (parent child : Nat) (e : GoErr)
    (hok : heapOKB h = true)
    (hch : cstateAt h child = some (newCancelCtx parent))
    (hperr : ctxErr h parent = some e) :
    propagateCancel h parent child = cancel h child false e ∧
    errAt (propagateCancel h parent child) child = some e := by
  have hw := skelOK_wf (heapOK_skel hok)
  have hinvDead : ∀ j cc, cstateAt h j = some cc → ∀ e0, cc.err = some e0 →
      ∃ dd, cc.done = some dd ∧ h.chan dd = some true :=
    fun j cc hcs e0 he0 => (heapOK_chanInv hok j cc hcs).2 e0 he0
  have heq := @propagate_canceled h parent child e hw hinvDead hperr
  have hchild := cstateAt_isSome_lt hch
  obtain ⟨f, hfL⟩ : ∃ f, h.nodes.length = f + 1 := ⟨h.nodes.length - 1, by omega⟩
  constructor
  · rw [heq]
    rfl
  · rw [heq, hfL]
    exact cancelAny_err_self f false e hch rfl

theorem c8_witness :
    propagateCancel c8Heap 1 2 = cancel c8Heap 2 false .canceled ∧
    errAt (propagateCancel c8Heap 1 2) 2 = some .canceled :=
  c8_child_under_dead_parent c8Heap 1 2 .canceled (by decide) (by decide) (by decide)

/-- C9: canceling a node that never had its `Done` channel requested
stores the shared pre-closed channel, so a later `Done()` call returns
that already-closed channel (never nil); a previously created channel
is instead closed in place and kept. -/
theorem c9_done_after_cancel (h : Heap) (i : Nat) (c : CState) (rm : Bool) (e : GoErr)
    (hc : cstateAt h i = some c) (hce : c.err = none)
    (hch0 : h.chan closedChanId = some true)
    (hdb : c.done.getD 0 < h.chans.length) :
    (c.done = none →
      doneAt (cancel h i rm e) i = some closedChanId ∧
      (ctxDone (cancel h i rm e) i).1 = some closedChanId ∧
      (cancel h i rm e).chan closedChanId = some true) ∧
    (∀ d, c.done = some d →
      doneAt (cancel h i rm e) i = some d ∧
      (cancel h i rm e).chan d = some true) := by
  have hi := cstateAt_isSome_lt hc
  obtain ⟨f, hfL⟩ : ∃ f, h.nodes.length = f + 1 := ⟨h.nodes.length - 1, by omega⟩
  rw [cancel_eq hfL]
  have heff := cancelAny_done_effect f rm e hc hce
  have hev := cancelAny_evolves (f+1) h i rm e
  constructor
  · intro hd
    have hdone := heff.1 hd
    obtain ⟨c1, hc1⟩ := cstate_some_of_skel (hev.2.1 i) hc
    have hc1d : c1.done = some closedChanId := by
      unfold doneAt at hdone
      rw [hc1] at hdone
      simpa using hdone
    refine ⟨hdone, ?_, hev.2.2.2.2.1 closedChanId hch0⟩
    rw [ctxDone_self_of_done hc1 hc1d]
  · intro d hd
    have hdb2 : d < h.chans.length := by rw [hd] at hdb; simpa using hdb
    exact ⟨heff.2.1 d hd, heff.2.2 d hd hdb2⟩

theorem c9_witness :
    doneAt (cancel exCancel1.1 1 true .canceled) 1 = some closedChanId ∧
    doneAt (cancel exDoneHeap 1 true .canceled) 1 = some 1 ∧
    (cancel exDoneHeap 1 true .canceled).chan 1 = some true :=
  ⟨((c9_done_after_cancel exCancel1.1 1 (newCancelCtx 0) true .canceled
      (by decide) (by decide) (by decide) (by decide)).1 rfl).1,
   ((c9_done_after_cancel exDoneHeap 1
      { parent := 0, done := some 1, children := [], err := none } true .canceled
      (by decide) (by decide) (by decide) (by decide)).2 1 rfl).1,
   ((c9_done_after_cancel exDoneHeap 1
      { parent := 0, done := some 1, children := [], err := none } true .canceled
      (by decide) (by decide) (by decide) (by decide)).2 1 rfl).2⟩

end CtxPkg
